import Mathlib

/-!
A shallow embedding of the `argser` declarative argument-parsing helper
(`argser.py`): the field-introspection → flag-synthesis → parse →
value-binding pipeline, together with the textual boolean converter and the
pretty-printer.  Python machine-level details that the library never relies
on (floating point, unicode-aware case mapping, keyword pass-through
dictionaries, nested list literals, and help/metavar presentation strings)
are outside the embedded universe; everything else follows the source line
by line.
-/

namespace Argser

/-- The Python types that can appear as annotations or as `type(...)` of a
default value in this library: `str`, `int`, `bool`, the plain `list` type,
a `typing.List`-style generic (`listBare` models `List` whose sole
`__args__` entry is a bare `TypeVar`, not a type; `listOf T` models
`List[T]`), and `NoneType`. -/
inductive PyType where
  | str
  | int
  | bool
  | list
  | listBare
  | listOf (param : PyType)
  | noneType
  deriving DecidableEq, Repr

/-- Scalar Python values (elements of list defaults and of parsed lists). -/
inductive PyScalar where
  | none
  | bool (b : Bool)
  | int (n : Int)
  | str (s : String)
  deriving DecidableEq, Repr

/-- Python values that can appear as field defaults or parsed results.
List values carry scalar elements, matching how the library uses list
defaults (flat lists of basic values). -/
inductive PyVal where
  | none
  | bool (b : Bool)
  | int (n : Int)
  | str (s : String)
  | list (xs : List PyScalar)
  deriving DecidableEq, Repr

/-- `type(v)` for an embedded scalar. -/
def PyScalar.typeOf : PyScalar → PyType
  | .none => .noneType
  | .bool _ => .bool
  | .int _ => .int
  | .str _ => .str

/-- `type(v)` for an embedded Python value. -/
def pyTypeOf : PyVal → PyType
  | .none => .noneType
  | .bool _ => .bool
  | .int _ => .int
  | .str _ => .str
  | .list _ => .list

/-- Python truthiness of an embedded value. -/
def pyTruthy : PyVal → Bool
  | .none => false
  | .bool b => b
  | .int n => n != 0
  | .str s => s != ""
  | .list xs => !xs.isEmpty

/-- ASCII-level model of Python `str.lower()` (the library only lowercases
plain ASCII flag spellings). -/
def pyLower (s : String) : String :=
  String.mk (s.data.map Char.toLower)

/-- Python `str.startswith` (list-level, so that concrete evaluation
reduces). -/
def strStartsWith (s pre : String) : Bool :=
  pre.data.isPrefixOf s.data

/-- Python `str.split` on the underscore separator, at the character-list
level: every maximal (possibly empty) run between underscores. -/
def splitUnderscore : List Char → List (List Char)
  | [] => [[]]
  | c :: rest =>
    match splitUnderscore rest with
    | seg :: segs => if c = '_' then [] :: seg :: segs else (c :: seg) :: segs
    | [] => [[]]

/-- The value of a decimal digit character. -/
def digitVal (c : Char) : Option Nat :=
  if 48 ≤ c.toNat ∧ c.toNat ≤ 57 then some (c.toNat - 48) else none

/-- Parse a non-empty run of decimal digits. -/
def parseDigits : List Char → Option Nat
  | [] => none
  | [c] => digitVal c
  | c :: rest => do
    let d ← digitVal c
    let n ← parseDigits rest
    pure (d * 10 ^ rest.length + n)

/-- Modelled from the spec: the `int` conversion the external parser applies
to a token (decimal digits with an optional leading minus; the exotic
accepted forms of Python `int()` are outside the modelled inputs). -/
def pyInt (s : String) : Option Int :=
  match s.data with
  | '-' :: rest => (parseDigits rest).map (fun n => -(n : Int))
  | rest => (parseDigits rest).map Int.ofNat

/-- `TRUE_VALUES` from the source. -/
def TRUE_VALUES : List String :=
  ["1", "true", "t", "okay", "ok", "affirmative", "yes", "y", "totally"]

/-- `FALSE_VALUES` from the source. -/
def FALSE_VALUES : List String :=
  ["0", "false", "f", "no", "n", "nope", "nah"]

/-- Embedded Python exceptions raised by the modelled code paths. -/
inductive PyErr where
  | argumentTypeError (msg : String)
  | indexError
  | typeError (msg : String)
  | attributeError
  | usageError (msg : String)
  deriving DecidableEq, Repr

/-- `str2bool` from the source: lowercase, then look the spelling up in
`TRUE_VALUES` / `FALSE_VALUES`, raising `ArgumentTypeError` otherwise. -/
def str2bool (v : String) : Except PyErr Bool :=
  let v := pyLower v
  if v ∈ TRUE_VALUES then .ok true
  else if v ∈ FALSE_VALUES then .ok false
  else .error (.argumentTypeError "Boolean value expected.")

/-- `is_list_like_type` from the source: true for `typing.List`-style
generics (plain `list` has neither `__origin__` nor list `__orig_bases__`,
so it is not list-like there). -/
def is_list_like_type : PyType → Bool
  | .listBare => true
  | .listOf _ => true
  | _ => false

/-- `len(default or [])`: a falsy default is replaced by `[]`; `len` is then
defined on strings and lists and raises `TypeError` on truthy ints/bools. -/
def pyLenOrEmpty : PyVal → Except PyErr Nat
  | .none => .ok 0
  | .bool false => .ok 0
  | .bool true => .error (.typeError "object of type bool has no len()")
  | .int n => if n = 0 then .ok 0 else .error (.typeError "object of type int has no len()")
  | .str s => .ok s.length
  | .list xs => .ok xs.length

/-- `default[0]` for a value known to have positive length (indexing a
string yields a one-character string, as in Python). -/
def pyIndex0 : PyVal → Except PyErr PyVal
  | .str s =>
    match s.data with
    | c :: _ => .ok (.str (String.mk [c]))
    | [] => .error .indexError
  | .list (x :: _) =>
    .ok (match x with
      | .none => .none
      | .bool b => .bool b
      | .int n => .int n
      | .str s => .str s)
  | _ => .error .indexError

/-- The arity (`nargs`) values of the embedding: a literal count, `*`, `+`
or `?`. -/
inductive NargsV where
  | num (n : Nat)
  | star
  | plus
  | question
  deriving DecidableEq, Repr

/-- `_get_nargs` from the source: decide element type and multiplicity for
plain `list`, for `typing.List`-style generics, and for scalars. -/
def _get_nargs (typ : PyType) (defaultV : PyVal) : Except PyErr (PyType × Option NargsV) :=
  if typ = .list then do
    let n ← pyLenOrEmpty defaultV
    if n = 0 then
      .ok (.str, some .star)
    else do
      let h ← pyIndex0 defaultV
      .ok (pyTypeOf h, some .plus)
  else if is_list_like_type typ then do
    let elemT := match typ with
      | .listOf p => p
      | _ => .str
    let n ← pyLenOrEmpty defaultV
    .ok (elemT, some (if n = 0 then .star else .plus))
  else
    .ok (typ, none)

/-- `_get_type_and_nargs` from the source: the type comes from the
annotation when present, else from the default value's type (`str` when the
default is `None`), then `_get_nargs` refines it. -/
def _get_type_and_nargs (ann : Option PyType) (defaultV : PyVal) :
    Except PyErr (PyType × Option NargsV) :=
  let typ := ann.getD (if defaultV = .none then .str else pyTypeOf defaultV)
  _get_nargs typ defaultV

/-- The callables that can be passed as an argparse `type`: a Python class
from the embedded universe, or the library's `str2bool` converter. -/
inductive TypeFn where
  | ofTy (t : PyType)
  | str2boolFn
  deriving DecidableEq, Repr

/-- The `Arg` descriptor (`PosArg` is the same object with `bool_flag`
forced off and positional naming, recorded by `pos`).  Presentation-only
attributes (`help`, `metavar`, `keep_default_help`, `help_format`) and the
keyword pass-through dictionary are not modelled.  Field defaults mirror
`Arg.__init__`. -/
structure ArgT where
  dest : Option String := none
  type : Option TypeFn := none
  default : PyVal := .none
  nargs : Option NargsV := none
  aliases : List String := []
  action : String := "store"
  bool_flag : Bool := true
  one_dash : Bool := false
  pos : Bool := false
  deriving DecidableEq, Repr

/-- The destination as the string Python code reads off `self.dest` once it
has been filled in (reading it while still `None` would itself be a bug). -/
def ArgT.destS (a : ArgT) : String :=
  a.dest.getD ""

/-- `Arg.names` / `PosArg.names`: a positional yields just its destination;
otherwise destination and aliases, each prefixed, single-dashed when one
character long or `one_dash` is set, double-dashed otherwise. -/
def ArgT.namesL (a : ArgT) (pre : String) : List String :=
  if a.pos then [a.destS]
  else (a.destS :: a.aliases).map (fun n =>
    let n := pre ++ n
    if n.length = 1 || a.one_dash then "-" ++ n else "--" ++ n)

/-- `SUB_COMMAND_DEST_FMT` from the source. -/
def SUB_COMMAND_DEST_FMT (name : String) : String :=
  "__" ++ name ++ "_sub_command__"

mutual
/-- A structure definition (the user's class): its `__name__` and its field
declarations in source order. -/
inductive ClassDef where
  | mk (name : String) (decls : List Decl)
/-- One class-body field declaration: `x : T`, `x = v`, or `x : T = v`. -/
inductive Decl where
  | mk (name : String) (ann : Option PyType) (val : Option CVal)
/-- A class-level default value: a plain value, an explicit `Arg`
descriptor, or an instance returned by `sub_command` (which carries the
`SUB_COMMAND_MARK`). -/
inductive CVal where
  | pv (v : PyVal)
  | argD (a : ArgT)
  | subc (cd : ClassDef)
end

/-- The class's `__name__`. -/
def ClassDef.nameF : ClassDef → String
  | .mk n _ => n

/-- The class's declarations. -/
def ClassDef.declsF : ClassDef → List Decl
  | .mk _ ds => ds

/-- `__annotations__` of the class: annotated declarations in order. -/
def ClassDef.annotations (cd : ClassDef) : List (String × PyType) :=
  cd.declsF.filterMap (fun d => match d with
    | .mk n (some t) _ => some (n, t)
    | _ => none)

/-- The class `__dict__` entries that carry a value, in declaration order
(dunder attributes injected by Python itself are outside the model). -/
def ClassDef.fieldsWithValue (cd : ClassDef) : List (String × CVal) :=
  cd.declsF.filterMap (fun d => match d with
    | .mk n _ (some v) => some (n, v)
    | _ => none)

/-- `_get_fields` from the source: first the annotated fields that carry no
class value (mapped to `None`), then every valued field in class-dict
order, skipping names that start with a double underscore. -/
def _get_fields (cd : ClassDef) : List (String × Option CVal) :=
  let fwv := cd.fieldsWithValue
  let annOnly := cd.annotations.filterMap (fun kv =>
    if (fwv.lookup kv.1).isNone then some (kv.1, (none : Option CVal)) else none)
  annOnly ++ fwv.filterMap (fun kv =>
    if strStartsWith kv.1 "__" then none else some (kv.1, some kv.2))

/-- The options `_read_args` receives (the presentation-only
`keep_default_help` / `help_format` options are not modelled). -/
structure ReadOpts where
  override : Bool := false
  bool_flag : Bool := true
  one_dash : Bool := false
  deriving DecidableEq, Repr

/-- `value.dest = value.dest or key`: the destination is replaced by the
field name when falsy (`None` or the empty string). -/
def destFill (key : String) : Option String → Option String
  | some s => if s = "" then some key else some s
  | Option.none => some key

/-- `value.type = value.type or typ`: the type is replaced by the inferred
type when unset (a class object is always truthy). -/
def typeFill (inferredT : PyType) : Option TypeFn → Option TypeFn
  | some t => some t
  | Option.none => some (.ofTy inferredT)

/-- `if value.action != 'append': value.nargs = value.nargs or nargs`: the
arity is replaced by the inferred arity when falsy (`None` or the literal
zero) and the action is not `append`. -/
def nargsFill (action : String) (inferredN : Option NargsV) (ng : Option NargsV) :
    Option NargsV :=
  if action ≠ "append" then
    match ng with
    | some (.num 0) => inferredN
    | some n => some n
    | Option.none => inferredN
  else ng

/-- The attribute fill-in `_read_args` performs on an explicit `Arg` object:
destination from the field name when falsy, type from the inferred type
when unset, arity from the inferred arity when falsy (Python `or`) and the
action is not `append`; under `override` the global flag options are forced
onto the object.  Everything else is left untouched. -/
def fillArg (o : ReadOpts) (key : String) (inferredT : PyType)
    (inferredN : Option NargsV) (a : ArgT) : ArgT :=
  if o.override then
    { a with dest := destFill key a.dest, type := typeFill inferredT a.type,
             nargs := nargsFill a.action inferredN a.nargs,
             bool_flag := o.bool_flag, one_dash := o.one_dash }
  else
    { a with dest := destFill key a.dest, type := typeFill inferredT a.type,
             nargs := nargsFill a.action inferredN a.nargs }

/-- The descriptor `_read_args` synthesizes for a plain field. -/
def newArg (o : ReadOpts) (key : String) (inferredT : PyType)
    (inferredN : Option NargsV) (defaultV : PyVal) : ArgT :=
  { dest := some key, type := some (.ofTy inferredT), default := defaultV,
    nargs := inferredN, bool_flag := o.bool_flag, one_dash := o.one_dash }

/-- The descriptor tree `_read_args` returns: the (mutated) class, its flat
descriptors, and its sub-command mapping. -/
inductive SubTree where
  | node (cd : ClassDef) (args : List ArgT) (subs : List (String × SubTree))

/-- The class stored in a descriptor tree node. -/
def SubTree.cdF : SubTree → ClassDef
  | .node cd _ _ => cd

/-- The flat descriptors of a descriptor tree node. -/
def SubTree.argsF : SubTree → List ArgT
  | .node _ args _ => args

/-- The sub-command mapping of a descriptor tree node. -/
def SubTree.subsF : SubTree → List (String × SubTree)
  | .node _ _ subs => subs

/-- What reading one field produces: a flat descriptor or a sub-command. -/
inductive FieldOut where
  | plain (key : String) (a : ArgT)
  | sub (key : String) (t : SubTree)

/-- Reading a field that carries no class value, or a plain/`Arg` value:
infer type and arity, then fill in or synthesize the descriptor
(`_read_args` body, non-sub-command cases). -/
def readPlainField (o : ReadOpts) (ann : List (String × PyType)) (key : String) :
    Option CVal → Except PyErr FieldOut
  | some (.argD a) => do
    let p ← _get_type_and_nargs (ann.lookup key) a.default
    .ok (.plain key (fillArg o key p.1 p.2 a))
  | some (.pv v) => do
    let p ← _get_type_and_nargs (ann.lookup key) v
    .ok (.plain key (newArg o key p.1 p.2 v))
  | _ => do
    let p ← _get_type_and_nargs (ann.lookup key) .none
    .ok (.plain key (newArg o key p.1 p.2 .none))

mutual
/-- `_read_args` from the source: walk `_get_fields`, recursing into marked
sub-commands (`override` is not forwarded to the recursive call, matching
the source), filling in explicit `Arg` objects in place and synthesizing
descriptors for plain fields.  The returned node carries the class with its
in-place mutations applied (`Arg`-valued attributes now filled in,
sub-command classes recursively mutated). -/
def _read_args (o : ReadOpts) (cd : ClassDef) : Except PyErr SubTree :=
  match cd with
  | .mk cname decls => do
    let ann := ClassDef.annotations (.mk cname decls)
    let fwv := ClassDef.fieldsWithValue (.mk cname decls)
    let annOnly := (ClassDef.annotations (.mk cname decls)).filterMap (fun kv =>
      if (fwv.lookup kv.1).isNone then some kv.1 else none)
    let annOuts ← annOnly.mapM (fun k => readPlainField o ann k none)
    let po ← readDecls o ann decls
    let outs := annOuts ++ po.1
    let args := outs.filterMap (fun fo => match fo with
      | .plain _ a => some a
      | _ => none)
    let subs := outs.filterMap (fun fo => match fo with
      | .sub k t => some (k, t)
      | _ => none)
    .ok (.node (.mk cname po.2) args subs)

/-- Read the valued declarations in order, also rebuilding the declaration
list with the in-place mutations applied. -/
def readDecls (o : ReadOpts) (ann : List (String × PyType)) :
    List Decl → Except PyErr (List FieldOut × List Decl)
  | [] => .ok ([], [])
  | d :: rest => do
    let hd ← readDecl o ann d
    let tl ← readDecls o ann rest
    .ok (hd.1.toList ++ tl.1, hd.2 :: tl.2)

/-- Read a single valued declaration (annotation-only and dunder-named
declarations contribute nothing here and are left unchanged). -/
def readDecl (o : ReadOpts) (ann : List (String × PyType)) (d : Decl) :
    Except PyErr (Option FieldOut × Decl) :=
  match d with
  | .mk n annT (some v) =>
    if strStartsWith n "__" then .ok (none, d)
    else match v with
      | .subc c => do
        let t ← _read_args { o with override := false } c
        .ok (some (.sub n t), .mk n annT (some (.subc t.cdF)))
      | .argD a => do
        let fo ← readPlainField o ann n (some (.argD a))
        let upd := match fo with
          | .plain _ a2 => Decl.mk n annT (some (.argD a2))
          | _ => d
        .ok (some fo, upd)
      | .pv pv => do
        let fo ← readPlainField o ann n (some (.pv pv))
        .ok (some fo, d)
  | .mk _ _ none => .ok (none, d)
end

/-- The kinds of argparse actions the library registers: a value-storing
action carrying its conversion and arity (the `append`/`count`-style
variants share the default-handling that matters here), the boolean
`store_true`/`store_false` pair, and the sub-command selector created by
`add_subparsers`. -/
inductive ActKind where
  | store (conv : Option TypeFn) (nargs : Option NargsV)
  | storeTrue
  | storeFalse
  | subSelector (choices : List String)
  deriving DecidableEq, Repr

/-- One registered argparse action: its accepted option strings (empty
dash-less list head means positional), destination, default and kind. -/
structure Action where
  opts : List String
  dest : String
  default : PyVal
  kind : ActKind
  deriving DecidableEq, Repr

/-- Whether argparse treats the action as positional (its first name does
not start with a dash). -/
def Action.isPositional (a : Action) : Bool :=
  match a.opts with
  | [] => true
  | s :: _ => !strStartsWith s "-"

/-- An argparse parser: registered actions, `set_defaults` overrides, and
the nested sub-parsers. -/
inductive ParserR where
  | mk (actions : List Action) (defaults : List (String × PyVal)) (subs : List (String × ParserR))

/-- The actions of a parser. -/
def ParserR.actionsF : ParserR → List Action
  | .mk acts _ _ => acts

/-- The `set_defaults` entries of a parser. -/
def ParserR.defaultsF : ParserR → List (String × PyVal)
  | .mk _ ds _ => ds

/-- The nested sub-parsers. -/
def ParserR.subsF : ParserR → List (String × ParserR)
  | .mk _ _ ss => ss

/-- Dict/attribute assignment: update the key in place when present
(dict keys are unique, so the first occurrence is the occurrence), append
at the end otherwise. -/
def updEntry {α : Type} : List (String × α) → String → α → List (String × α)
  | [], k, v => [(k, v)]
  | kv :: rest, k, v => if kv.1 = k then (k, v) :: rest else kv :: updEntry rest k v

/-- Dict/namespace assignment. -/
def dictSet (l : List (String × PyVal)) (k : String) (v : PyVal) :
    List (String × PyVal) :=
  updEntry l k v

/-- `parser.add_argument(...)`: append an action. -/
def ParserR.addAction (p : ParserR) (a : Action) : ParserR :=
  .mk (p.actionsF ++ [a]) p.defaultsF p.subsF

/-- `parser.set_defaults(**{dest: v})`. -/
def ParserR.setDefaults (p : ParserR) (k : String) (v : PyVal) : ParserR :=
  .mk p.actionsF (dictSet p.defaultsF k v) p.subsF

/-- `Arg.inject_bool` from the source: with `bool_flag` on and no list
arity, register `store_true` for a default of exactly `False`,
`store_false` with a `no-` prefix for a default of exactly `True`, and both
flags otherwise, then re-apply the declared default via `set_defaults`;
with `bool_flag` off (or a list arity), register an ordinary action whose
conversion is `str2bool`. -/
def ArgT.inject_bool (a : ArgT) (p : ParserR) : ParserR :=
  if a.bool_flag && !(a.nargs = some .star || a.nargs = some .plus) then
    let p :=
      if a.default = .bool false then
        p.addAction { opts := a.namesL "", dest := a.destS, default := a.default,
                      kind := .storeTrue }
      else if a.default = .bool true then
        p.addAction { opts := a.namesL "no-", dest := a.destS, default := a.default,
                      kind := .storeFalse }
      else
        (p.addAction { opts := a.namesL "", dest := a.destS, default := a.default,
                       kind := .storeTrue }).addAction
          { opts := a.namesL "no-", dest := a.destS, default := a.default,
            kind := .storeFalse }
    p.setDefaults a.destS a.default
  else
    p.addAction { opts := a.namesL "", dest := a.destS, default := a.default,
                  kind := .store (some .str2boolFn) a.nargs }

/-- `Arg.inject` from the source: boolean-typed descriptors go through
`inject_bool`; everything else is registered with its declared names,
destination, default, conversion and arity. -/
def ArgT.inject (a : ArgT) (p : ParserR) : ParserR :=
  if a.type = some (.ofTy .bool) then a.inject_bool p
  else
    p.addAction { opts := a.namesL "", dest := a.destS, default := a.default,
                  kind := .store a.type a.nargs }

/-- The non-recursive part of `_make_parser`: inject every descriptor in
order; when sub-commands exist, add the selector action (destination
`__<name>_sub_command__`, absent by default) and attach the given nested
parsers. -/
def makeParserCore (name : String) (args : List ArgT) (subs : List (String × SubTree))
    (subParsers : List (String × ParserR)) : ParserR :=
  let p := args.foldl (fun p a => a.inject p) (.mk [] [] [])
  if subs.isEmpty then p
  else
    let p := p.addAction { opts := [], dest := SUB_COMMAND_DEST_FMT name,
                           default := .none, kind := .subSelector (subs.map (·.1)) }
    .mk p.actionsF p.defaultsF subParsers

mutual
/-- Build the parser of one sub-command branch. -/
def makeParserTree : String → SubTree → ParserR
  | name, .node _ args subs => makeParserCore name args subs (makeSubParsers subs)

/-- Build the nested parsers of each sub-command branch. -/
def makeSubParsers : List (String × SubTree) → List (String × ParserR)
  | [] => []
  | (n, t) :: rest => (n, makeParserTree n t) :: makeSubParsers rest
end

/-- `_make_parser` from the source: inject every descriptor in order; when
sub-commands exist, add the selector action and build one nested parser per
branch, recursively. -/
def mkParser (name : String) (args : List ArgT) (subs : List (String × SubTree)) :
    ParserR :=
  makeParserCore name args subs (makeSubParsers subs)

mutual
/-- Flatten one branch's descriptors, depth-first. -/
def allArgsTree : SubTree → List ArgT
  | .node _ args subs => args ++ allArgsSubs subs

/-- Flatten the sub-command branches' descriptors, depth-first. -/
def allArgsSubs : List (String × SubTree) → List ArgT
  | [] => []
  | (_, t) :: rest => allArgsTree t ++ allArgsSubs rest
end

/-- `_get_all_args` from the source: this scope's descriptors followed by
every sub-command branch's, depth-first. -/
def _get_all_args (args : List ArgT) (subs : List (String × SubTree)) : List ArgT :=
  args ++ allArgsSubs subs

/-- A parse-result namespace: destination → value, in assignment order. -/
abbrev NamespaceN := List (String × PyVal)

/-- `namespace.__dict__.get(dest)`: `None` when absent (an explicitly
stored `None` and a missing key are indistinguishable to `dict.get`). -/
def nsGet (ns : NamespaceN) (k : String) : PyVal :=
  (List.lookup k ns).getD .none

/-- Modelled from the spec: the external argparse engine's conversion of a
token through the registered `type` callable (`str` and identity leave the
token alone, `int` parses a decimal integer, `str2bool` is the library's
converter; other conversions never arise from the modelled registrations). -/
def applyConv (conv : Option TypeFn) (s : String) : Except PyErr PyScalar :=
  match conv with
  | none => .ok (.str s)
  | some (.ofTy .str) => .ok (.str s)
  | some (.ofTy .int) =>
    match pyInt s with
    | some n => .ok (.int n)
    | none => .error (.usageError ("invalid int value: " ++ s))
  | some .str2boolFn => (str2bool s).map .bool
  | some _ => .error (.usageError "conversion outside the modelled universe")

/-- A converted scalar as a namespace value. -/
def PyScalar.toVal : PyScalar → PyVal
  | .none => .none
  | .bool b => .bool b
  | .int n => .int n
  | .str s => .str s

/-- Modelled from the spec: argparse initializes the namespace with each
action's default (first action wins for a shared destination), then
`set_defaults` entries take precedence. -/
def initDefaults (p : ParserR) : NamespaceN :=
  let ns := p.actionsF.foldl
    (fun ns a => if (List.lookup a.dest ns).isSome then ns else ns ++ [(a.dest, a.default)])
    ([] : NamespaceN)
  p.defaultsF.foldl (fun ns kv => dictSet ns kv.1 kv.2) ns

/-- Whether an action demands at least one command-line value, so that a
positional of this kind makes the empty command line a usage error. -/
def ActKind.requiresValues : ActKind → Bool
  | .store _ none => true
  | .store _ (some (.num n)) => n > 0
  | .store _ (some .plus) => true
  | .store _ (some .star) => false
  | .store _ (some .question) => false
  | .storeTrue => false
  | .storeFalse => false
  | .subSelector _ => false

/-- Find the action owning an exactly-matching option string. -/
def findAction (acts : List Action) (tok : String) : Option Action :=
  acts.find? (fun a => tok ∈ a.opts)

/-- Modelled from the spec: the external argparse token loop, restricted to
exact long/short flag spellings — `store_true`/`store_false` set their
constant, a plain store consumes one following token, a `*`/`+` arity
consumes the maximal run of dash-less tokens (at least one for `+`), and
anything unrecognized is a usage error.  Prefix abbreviations, `=` forms
and positional/sub-command dispatch are outside the modelled inputs.  The
fuel argument only makes the recursion structural: every step consumes at
least one token, so fuel at least the token count never runs out. -/
def parseLoopF (acts : List Action) : Nat → NamespaceN → List String → Except PyErr NamespaceN
  | _, ns, [] => .ok ns
  | 0, _, _ :: _ => .error (.usageError "token loop fuel exhausted")
  | fuel + 1, ns, tok :: rest =>
    match findAction acts tok with
    | Option.none => .error (.usageError ("unrecognized arguments: " ++ tok))
    | some a =>
      match a.kind with
      | .storeTrue => parseLoopF acts fuel (dictSet ns a.dest (.bool true)) rest
      | .storeFalse => parseLoopF acts fuel (dictSet ns a.dest (.bool false)) rest
      | .store conv Option.none =>
        match rest with
        | [] => .error (.usageError ("argument " ++ tok ++ ": expected one argument"))
        | v :: rest2 =>
          match applyConv conv v with
          | .error e => .error e
          | .ok x => parseLoopF acts fuel (dictSet ns a.dest x.toVal) rest2
      | .store conv (some (.num n)) =>
        let vals := rest.take n
        if vals.length < n then .error (.usageError ("argument " ++ tok ++ ": expected values"))
        else
          match vals.mapM (applyConv conv) with
          | .error e => .error e
          | .ok xs => parseLoopF acts fuel (dictSet ns a.dest (.list xs)) (rest.drop n)
      | .store conv (some .question) =>
        match rest with
        | [] => parseLoopF acts fuel (dictSet ns a.dest a.default) []
        | v :: rest2 =>
          if strStartsWith v "-" then
            parseLoopF acts fuel (dictSet ns a.dest a.default) (v :: rest2)
          else
            match applyConv conv v with
            | .error e => .error e
            | .ok x => parseLoopF acts fuel (dictSet ns a.dest x.toVal) rest2
      | .store conv (some .star) =>
        let vals := rest.takeWhile (fun t => !strStartsWith t "-")
        match vals.mapM (applyConv conv) with
        | .error e => .error e
        | .ok xs => parseLoopF acts fuel (dictSet ns a.dest (.list xs)) (rest.drop vals.length)
      | .store conv (some .plus) =>
        let vals := rest.takeWhile (fun t => !strStartsWith t "-")
        if vals.isEmpty then .error (.usageError ("argument " ++ tok ++ ": expected at least one argument"))
        else
          match vals.mapM (applyConv conv) with
          | .error e => .error e
          | .ok xs => parseLoopF acts fuel (dictSet ns a.dest (.list xs)) (rest.drop vals.length)
      | .subSelector _ => .error (.usageError "sub-command dispatch outside the modelled inputs")

/-- The token loop entered with enough fuel. -/
def parseLoop (acts : List Action) (ns : NamespaceN) (toks : List String) :
    Except PyErr NamespaceN :=
  parseLoopF acts toks.length ns toks

/-- Modelled from the spec: `parser.parse_args(tokens)` — defaults first,
then the token loop, then the missing-required-argument check for
positionals that demand values (the modelled token loop never feeds
positionals, so the check fires exactly when such a positional exists). -/
def parserParseArgs (p : ParserR) (tokens : List String) : Except PyErr NamespaceN := do
  let ns := initDefaults p
  let ns ← parseLoop p.actionsF ns tokens
  if p.actionsF.any (fun a => a.isPositional && a.kind.requiresValues) then
    .error (.usageError "the following arguments are required")
  else
    .ok ns

/-- Read a `defaultdict(int)` counter. -/
def getCount (m : List (String × Nat)) (k : String) : Nat :=
  (m.lookup k).getD 0

/-- Increment a `defaultdict(int)` counter (keeping insertion order). -/
def bumpCount (m : List (String × Nat)) (k : String) : List (String × Nat) :=
  updEntry m k (getCount m k + 1)

/-- `''.join(e[0] for e in dest.split('_'))`: the concatenated initials of
the underscore-separated segments, undefined (Python `IndexError`) when a
segment is empty. -/
def initials (s : String) : Option String :=
  ((splitUnderscore s.data).mapM List.head?).map String.mk

/-- One step of `_make_shortcuts`, threading the usage counters: skip
descriptors that already have aliases or whose initials equal the
destination; otherwise bump the candidate's counter and append the counter
value when it exceeds one. -/
def shortcutsGo (m : List (String × Nat)) :
    List ArgT → Except PyErr (List ArgT × List (String × Nat))
  | [] => .ok ([], m)
  | a :: rest =>
    if a.aliases ≠ [] then
      match shortcutsGo m rest with
      | .error e => .error e
      | .ok (r, m2) => .ok (a :: r, m2)
    else
      match initials a.destS with
      | Option.none => .error .indexError
      | some cand =>
        if cand = a.destS then
          match shortcutsGo m rest with
          | .error e => .error e
          | .ok (r, m2) => .ok (a :: r, m2)
        else
          let m1 := bumpCount m cand
          let n := getCount m1 cand
          let ali := if n > 1 then cand ++ toString n else cand
          match shortcutsGo m1 rest with
          | .error e => .error e
          | .ok (r, m2) => .ok ({ a with aliases := [ali] } :: r, m2)

/-- `_make_shortcuts` from the source: seed the usage counters with every
destination name, then assign generated aliases in list order. -/
def _make_shortcuts (args : List ArgT) : Except PyErr (List ArgT) :=
  let used := args.foldl (fun m a => bumpCount m a.destS) []
  (shortcutsGo used args).map (·.1)

mutual
/-- Applying `_make_shortcuts` over a descriptor tree: since the Python
code mutates the flattened descriptors in place, the tree's descriptor
lists are rewritten scope by scope in exactly the flattening order,
threading the same usage counters. -/
def shortcutsTree (m : List (String × Nat)) (t : SubTree) :
    Except PyErr (SubTree × List (String × Nat)) :=
  match t with
  | .node cd args subs =>
    match shortcutsGo m args with
    | .error e => .error e
    | .ok (args2, m2) =>
      match shortcutsSubs m2 subs with
      | .error e => .error e
      | .ok (subs2, m3) => .ok (.node cd args2 subs2, m3)

/-- Apply the shortcut pass to each sub-command branch in order. -/
def shortcutsSubs (m : List (String × Nat)) :
    List (String × SubTree) → Except PyErr (List (String × SubTree) × List (String × Nat))
  | [] => .ok ([], m)
  | (n, t) :: rest =>
    match shortcutsTree m t with
    | .error e => .error e
    | .ok (t2, m2) =>
      match shortcutsSubs m2 rest with
      | .error e => .error e
      | .ok (rest2, m3) => .ok ((n, t2) :: rest2, m3)
end

mutual
/-- A result instance: its class name and its `__dict__` in assignment
order (attribute lookups fall back to the class when a key is absent). -/
inductive ResI where
  | mk (clsName : String) (assigned : List (String × RVal))
/-- An instance attribute value: a plain parsed value or a nested result
instance. -/
inductive RVal where
  | prim (v : PyVal)
  | inst (r : ResI)
end

/-- Class name of a result instance. -/
def ResI.clsNameF : ResI → String
  | .mk n _ => n

/-- Instance `__dict__` of a result instance. -/
def ResI.assignedF : ResI → List (String × RVal)
  | .mk _ fs => fs

/-- `setattr(res, k, v)`: update in place (keeping the key's insertion
position) or append. -/
def setattrR (r : ResI) (k : String) (v : RVal) : ResI :=
  .mk r.clsNameF (updEntry r.assignedF k v)

/-- Instance-`__dict__` lookup. -/
def lookupR (r : ResI) (k : String) : Option RVal :=
  r.assignedF.lookup k

/-- `sub_command(args_cls)` / `args_cls()`: a fresh instance with an empty
`__dict__` (a first parse; the class-level sub-command instances have not
been touched yet). -/
def freshRes (t : SubTree) : ResI :=
  .mk t.cdF.nameF []

/-- The descriptor loop of `_set_values`: write each descriptor's parsed
value onto its destination. -/
def setArgsValues (res : ResI) (ns : NamespaceN) (args : List ArgT) : ResI :=
  args.foldl (fun r a => setattrR r a.destS (.prim (nsGet ns a.destS))) res

mutual
/-- Binding one selected branch: descriptor values, then its own
sub-command loop. -/
def setValuesTree (name : String) (r0 : ResI) (ns : NamespaceN) : SubTree → Except PyErr ResI
  | .node _ sargs ssubs => setValuesSubs name (setArgsValues r0 ns sargs) ns ssubs

/-- The sub-command loop of `_set_values`: for each sub-command either
recurse into the branch instance (obtained by attribute lookup, falling
back to the fresh class-level instance) when the selector chose it, or
write `None`.  Recursing into a non-instance value would raise
`AttributeError` on the first nested access, unless the branch is
completely empty. -/
def setValuesSubs (pname : String) (res : ResI) (ns : NamespaceN) :
    List (String × SubTree) → Except PyErr ResI
  | [] => .ok res
  | (name, t) :: rest =>
    if nsGet ns (SUB_COMMAND_DEST_FMT pname) = .str name then
      match (lookupR res name).getD (.inst (freshRes t)) with
      | .inst r0 =>
        match setValuesTree name r0 ns t with
        | .error e => .error e
        | .ok r1 => setValuesSubs pname (setattrR res name (.inst r1)) ns rest
      | .prim v =>
        if t.argsF.isEmpty && t.subsF.isEmpty then
          setValuesSubs pname (setattrR res name (.prim v)) ns rest
        else .error .attributeError
    else
      setValuesSubs pname (setattrR res name (.prim .none)) ns rest
end

/-- `_set_values` from the source: write each descriptor's parsed value
onto its destination, then run the sub-command loop. -/
def setValues (pname : String) (res : ResI) (ns : NamespaceN) (args : List ArgT)
    (subs : List (String × SubTree)) : Except PyErr ResI :=
  setValuesSubs pname (setArgsValues res ns args) ns subs

/-- Python `repr` of an embedded scalar (strings are quote-free in the
modelled universe, so no escaping arises). -/
def PyScalar.repr : PyScalar → String
  | .none => "None"
  | .bool true => "True"
  | .bool false => "False"
  | .int n => toString n
  | .str s => "\x27" ++ s ++ "\x27"

/-- Python `repr` of an embedded value. -/
def pyRepr : PyVal → String
  | .none => "None"
  | .bool true => "True"
  | .bool false => "False"
  | .int n => toString n
  | .str s => "\x27" ++ s ++ "\x27"
  | .list xs => "[" ++ String.intercalate ", " (xs.map PyScalar.repr) ++ "]"

mutual
/-- `stringify` from the source: the class name wrapping the
comma-separated `name=repr(value)` pairs of the instance `__dict__` in
assignment order (`sub_command` installs `stringify` as `__repr__`, so a
nested instance renders recursively). -/
def stringify (r : ResI) : String :=
  match r with
  | .mk cname fs => cname ++ "(" ++ String.intercalate ", " (stringifyPairs fs) ++ ")"

/-- Render the `name=repr(value)` pairs. -/
def stringifyPairs : List (String × RVal) → List String
  | [] => []
  | (k, v) :: rest => (k ++ "=" ++ reprRV v) :: stringifyPairs rest

/-- `repr` of an attribute value. -/
def reprRV : RVal → String
  | .prim v => pyRepr v
  | .inst r => stringify r
end

/-- The `parse_args` options that are modelled (`show`/printing, help
colors and formats, and raw parser kwargs are presentation-only). -/
structure ParseOpts where
  make_shortcuts : Bool := true
  bool_flag : Bool := true
  one_dash : Bool := false
  override : Bool := false
  deriving DecidableEq, Repr

/-- The `make_shortcuts` block of `parse_args`: seed the usage counters
with every flattened destination, then rewrite the tree in flattening
order (the Python code mutates the flattened descriptor objects in
place). -/
def shortcutStep (tree : SubTree) : Except PyErr SubTree := do
  let used := (_get_all_args tree.argsF tree.subsF).foldl
    (fun m a => bumpCount m a.destS) []
  let p ← shortcutsTree used tree
  pure p.1

/-- `parse_args` from the source: read the class into a descriptor tree,
optionally generate shortcuts over the flattened descriptors, build the
parser, run the external parse, then bind the namespace back onto a fresh
result instance. -/
def parse_args (cd : ClassDef) (tokens : List String) (o : ParseOpts := {}) :
    Except PyErr ResI := do
  let tree ← _read_args { override := o.override, bool_flag := o.bool_flag,
                          one_dash := o.one_dash } cd
  let tree ← if o.make_shortcuts then shortcutStep tree else pure tree
  let parser := mkParser "root" tree.argsF tree.subsF
  let ns ← parserParseArgs parser tokens
  let result := freshRes tree
  setValues "root" result ns tree.argsF tree.subsF

/-- The parsed value of a plain field of a result instance. -/
def getPrim (res : ResI) (k : String) : Option PyVal :=
  match lookupR res k with
  | some (.prim v) => some v
  | _ => none

/-- The name of a declaration. -/
def Decl.nameF : Decl → String
  | .mk n _ _ => n

/-- The field names of a structure definition in raw declaration order. -/
def declFieldNames (cd : ClassDef) : List String :=
  cd.declsF.map Decl.nameF

/-- The single-line rendering a declaration-ordered `stringify` would
produce: the class name wrapping `name=repr(value)` pairs in raw
declaration order. -/
def renderDeclOrder (cd : ClassDef) (res : ResI) : String :=
  cd.nameF ++ "(" ++ String.intercalate ", "
    (declFieldNames cd |>.map (fun k => k ++ "=" ++
      (match lookupR res k with
       | some v => reprRV v
       | Option.none => "?"))) ++ ")"

/-- The Type/Arity Inferencer as the claim words it, rules in the claim's
order: a plain-sequence default decides first; then a sequence-like generic
annotation (zero-or-more when the default is empty/absent, read as falsy);
then the scalar fallback.  Total by construction. -/
def inferClaimed (ann : Option PyType) (defaultV : PyVal) : PyType × Option NargsV :=
  match defaultV with
  | .list [] => (.str, some .star)
  | .list (x :: _) => (x.typeOf, some .plus)
  | _ =>
    match ann with
    | some .listBare => (.str, if pyTruthy defaultV then some .plus else some .star)
    | some (.listOf p) => (p, if pyTruthy defaultV then some .plus else some .star)
    | some t => (t, none)
    | Option.none => ((if defaultV = .none then .str else pyTypeOf defaultV), none)

/-- Whether `default or []` has length zero, for defaults that do have a
length (strings and lists) or are falsy. -/
def pyLenFalsy : PyVal → Bool
  | .none => true
  | .bool b => !b
  | .int n => n == 0
  | .str s => s == ""
  | .list xs => xs.isEmpty

/-- The amended reading of the Inferencer: the effective type (annotation
if present, else the default's type, else `str`) is dispatched on first;
a plain-`list` effective type inspects `default or []`, raising `TypeError`
on a truthy default that has no length; a sequence-like generic takes its
parameter (else `str`) with arity by emptiness of `default or []`; anything
else is a scalar with no arity. -/
def inferAmended (ann : Option PyType) (defaultV : PyVal) :
    Except PyErr (PyType × Option NargsV) :=
  let eff := ann.getD (if defaultV = .none then .str else pyTypeOf defaultV)
  match eff with
  | .list =>
    match defaultV with
    | .none => .ok (.str, some .star)
    | .bool false => .ok (.str, some .star)
    | .bool true => .error (.typeError "object of type bool has no len()")
    | .int 0 => .ok (.str, some .star)
    | .int _ => .error (.typeError "object of type int has no len()")
    | .str "" => .ok (.str, some .star)
    | .str _ => .ok (.str, some .plus)
    | .list [] => .ok (.str, some .star)
    | .list (x :: _) => .ok (x.typeOf, some .plus)
  | .listBare =>
    match defaultV with
    | .bool true => .error (.typeError "object of type bool has no len()")
    | .int n => if n = 0 then .ok (.str, some .star)
                else .error (.typeError "object of type int has no len()")
    | d => .ok (.str, if pyLenFalsy d then some .star else some .plus)
  | .listOf p =>
    match defaultV with
    | .bool true => .error (.typeError "object of type bool has no len()")
    | .int n => if n = 0 then .ok (p, some .star)
                else .error (.typeError "object of type int has no len()")
    | d => .ok (p, if pyLenFalsy d then some .star else some .plus)
  | t => .ok (t, none)

/-- The Shortcut Assigner as the claim words it: identical processing, but
the usage counters start empty instead of being seeded with every
destination name. -/
def makeShortcutsClaimed (args : List ArgT) : Except PyErr (List ArgT) :=
  (shortcutsGo [] args).map (·.1)

/-- The generated-alias candidate of a descriptor: defined only when the
alias set is empty and the initials of the destination differ from the
destination itself. -/
def shortcutCandidate (a : ArgT) : Option String :=
  if a.aliases ≠ [] then none
  else match initials a.destS with
    | some c => if c = a.destS then none else some c
    | Option.none => none

deriving instance DecidableEq for Except

/-- The alias `_make_shortcuts` generates from candidate `c` when the
usage counter reads `n`. -/
def mkAlias (c : String) (n : Nat) : String :=
  if n > 1 then c ++ toString n else c

/-- A descriptor with its alias set wiped, for stating that the shortcut
pass changes nothing but aliases. -/
def eraseAliases (a : ArgT) : ArgT :=
  { a with aliases := [] }

theorem char_toNat_ofNat_valid (m : Nat) (h : m.isValidChar) :
    (Char.ofNat m).toNat = m := by
  simp [Char.ofNat, h, Char.ofNatAux, Char.toNat, UInt32.toNat, UInt32.ofNatCore]

theorem char_toLower_idem (c : Char) : c.toLower.toLower = c.toLower := by
  unfold Char.toLower
  by_cases h : c.toNat ≥ 65 ∧ c.toNat ≤ 90
  · rw [if_pos h]
    have hv : (c.toNat + 32).isValidChar := Or.inl (by omega)
    have he := char_toNat_ofNat_valid _ hv
    rw [if_neg]
    rw [he]
    omega
  · rw [if_neg h, if_neg h]

theorem pyLower_idem (s : String) : pyLower (pyLower s) = pyLower s := by
  unfold pyLower
  have : ∀ l : List Char, (l.map Char.toLower).map Char.toLower = l.map Char.toLower := by
    intro l
    induction l with
    | nil => rfl
    | cons c cs ih => simp [char_toLower_idem, ih]
  simp [this]

/-- C7 counterexample: `str2bool` accepts the spelling `"TRUE"` (returning
true) even though `"TRUE"` belongs to neither spelling set, so the claim
that it raises exactly outside the two listed sets is false as stated. -/
theorem str2bool_exact_spellings_cex :
    str2bool "TRUE" = .ok true ∧ "TRUE" ∉ TRUE_VALUES ∧ "TRUE" ∉ FALSE_VALUES := by
  decide

/-- C7 (amended): after lowercasing the input, `str2bool` returns true
exactly on `TRUE_VALUES`, false exactly on `FALSE_VALUES`, and otherwise
raises the typed conversion error with the fixed message
`Boolean value expected.`. -/
theorem str2bool_spellings (v : String) :
    (str2bool v = .ok true ↔ pyLower v ∈ TRUE_VALUES) ∧
    (str2bool v = .ok false ↔ pyLower v ∈ FALSE_VALUES) ∧
    (str2bool v = .error (.argumentTypeError "Boolean value expected.") ↔
      (pyLower v ∉ TRUE_VALUES ∧ pyLower v ∉ FALSE_VALUES)) := by
  have hd : ∀ x, x ∈ TRUE_VALUES → x ∉ FALSE_VALUES := by
    intro x hx
    fin_cases hx <;> decide
  unfold str2bool
  by_cases ht : pyLower v ∈ TRUE_VALUES
  · have hf := hd _ ht
    simp [ht, hf]
  · by_cases hf : pyLower v ∈ FALSE_VALUES
    · simp [ht, hf]
    · simp [ht, hf]

/-- C7 witness: the amended characterization evaluated at the concrete
input `"Yes"`. -/
theorem str2bool_spellings_witness :
    (str2bool "Yes" = .ok true ↔ pyLower "Yes" ∈ TRUE_VALUES) ∧
    (str2bool "Yes" = .ok false ↔ pyLower "Yes" ∈ FALSE_VALUES) ∧
    (str2bool "Yes" = .error (.argumentTypeError "Boolean value expected.") ↔
      (pyLower "Yes" ∉ TRUE_VALUES ∧ pyLower "Yes" ∉ FALSE_VALUES)) :=
  str2bool_spellings "Yes"

/-- C10: `str2bool` is case-insensitive — the result on any input equals
the result on its lowercased form. -/
theorem str2bool_case_insensitive (v : String) :
    str2bool v = str2bool (pyLower v) := by
  unfold str2bool
  rw [pyLower_idem]

/-- C10 witness: case-insensitivity evaluated at `"TRUE"`. -/
theorem str2bool_case_insensitive_witness :
    str2bool "TRUE" = str2bool (pyLower "TRUE") :=
  str2bool_case_insensitive "TRUE"

/-- C4 counterexample: with annotation `List[int]` and the plain-sequence
default `["a"]`, the code dispatches on the annotation and yields element
type `int`, while the claim's first rule (a plain-sequence default decides
first, taking the element type from the first element) predicts `str`. -/
theorem inferencer_claim_cex :
    _get_type_and_nargs (some (.listOf .int)) (.list [.str "a"]) = .ok (.int, some .plus) ∧
    inferClaimed (some (.listOf .int)) (.list [.str "a"]) = (.str, some .plus) ∧
    ((.int, some .plus) : PyType × Option NargsV) ≠ (.str, some .plus) := by
  decide

/-- C4 (amended): the Inferencer dispatches on the effective type
(annotation if present, else the default's type, else `str`): a plain
`list` effective type inspects `default or []` (element from the first
element when non-empty, raising `TypeError` on a truthy length-less
default); a sequence-like generic takes its parameter (else `str`) with
arity by emptiness of `default or []`; anything else is a scalar with no
arity. -/
theorem inferencer_amended (ann : Option PyType) (d : PyVal) :
    _get_type_and_nargs ann d = inferAmended ann d := by
  have hint : ∀ (n : Int), _get_nargs .list (.int n) = inferAmended (some .list) (.int n) := by
    intro n
    cases n with
    | ofNat m => cases m <;> rfl
    | negSucc m => rfl
  have hintB : ∀ (n : Int) p, _get_nargs (.listOf p) (.int n) = inferAmended (some (.listOf p)) (.int n) := by
    intro n p
    cases n with
    | ofNat m => cases m <;> rfl
    | negSucc m => rfl
  have hintC : ∀ (n : Int), _get_nargs .listBare (.int n) = inferAmended (some .listBare) (.int n) := by
    intro n
    cases n with
    | ofNat m => cases m <;> rfl
    | negSucc m => rfl
  cases ann with
  | none =>
    cases d with
    | none => rfl
    | bool b => cases b <;> rfl
    | int n => rfl
    | str s => rfl
    | list xs =>
      cases xs with
      | nil => rfl
      | cons x xs => cases x <;> rfl
  | some t =>
    cases t with
    | str => cases d <;> rfl
    | int => cases d <;> rfl
    | bool => cases d <;> rfl
    | noneType => cases d <;> rfl
    | list =>
      cases d with
      | none => rfl
      | bool b => cases b <;> rfl
      | int n => exact hint n
      | str s =>
        cases s with
        | mk l => cases l <;> rfl
      | list xs =>
        cases xs with
        | nil => rfl
        | cons x xs => cases x <;> rfl
    | listBare =>
      cases d with
      | none => rfl
      | bool b => cases b <;> rfl
      | int n => exact hintC n
      | str s =>
        cases s with
        | mk l => cases l <;> rfl
      | list xs => cases xs <;> rfl
    | listOf p =>
      cases d with
      | none => rfl
      | bool b => cases b <;> rfl
      | int n => exact hintB n p
      | str s =>
        cases s with
        | mk l => cases l <;> rfl
      | list xs => cases xs <;> rfl

/-- C4 witness: the amended equivalence evaluated at a concrete pair —
no annotation with a non-empty plain-list default. -/
theorem inferencer_amended_witness :
    _get_type_and_nargs Option.none (.list [.int 3]) =
      inferAmended Option.none (.list [.int 3]) :=
  inferencer_amended Option.none (.list [.int 3])

theorem lookup_updEntry {α : Type} (m : List (String × α)) (k k' : String) (v : α) :
    List.lookup k' (updEntry m k v) = if k' = k then some v else List.lookup k' m := by
  induction m with
  | nil =>
    by_cases h : k' = k
    · simp [updEntry, List.lookup, h]
    · simp [updEntry, List.lookup, h, (beq_eq_false_iff_ne.mpr h)]
  | cons kv rest ih =>
    unfold updEntry
    by_cases hk : kv.1 = k
    · by_cases h : k' = k
      · simp [hk, List.lookup, h]
      · simp [hk, List.lookup, h, (beq_eq_false_iff_ne.mpr h)]
    · by_cases h : k' = k
      · subst h
        have h2 : ¬ k' = kv.1 := fun hc => hk hc.symm
        simp [hk, List.lookup, ih, (beq_eq_false_iff_ne.mpr h2)]
      · by_cases h3 : k' = kv.1
        · simp [hk, List.lookup, h3, ih, h]
        · simp [hk, List.lookup, ih, h, (beq_eq_false_iff_ne.mpr h3)]

theorem getCount_bumpCount (m : List (String × Nat)) (k k' : String) :
    getCount (bumpCount m k) k' = getCount m k' + (if k' = k then 1 else 0) := by
  unfold bumpCount getCount
  rw [lookup_updEntry]
  by_cases h : k' = k <;> simp [h]

theorem shortcutsGo_cons_skip (m : List (String × Nat)) (a : ArgT) (rest : List ArgT)
    (hskip : a.aliases ≠ [] ∨ initials a.destS = some a.destS) :
    shortcutsGo m (a :: rest) =
      (match shortcutsGo m rest with
       | .error e => .error e
       | .ok (r, m2) => .ok (a :: r, m2)) := by
  rw [shortcutsGo.eq_def]
  dsimp only
  by_cases ha : a.aliases ≠ []
  · rw [if_pos ha]
  · rw [if_neg ha]
    have hini : initials a.destS = some a.destS := hskip.resolve_left ha
    rw [hini]
    dsimp only
    rw [if_pos rfl]

theorem shortcutsGo_cons_err (m : List (String × Nat)) (a : ArgT) (rest : List ArgT)
    (ha : a.aliases = []) (hini : initials a.destS = Option.none) :
    shortcutsGo m (a :: rest) = .error .indexError := by
  rw [shortcutsGo.eq_def]
  dsimp only
  rw [if_neg (by simp [ha]), hini]

theorem shortcutsGo_cons_assign (m : List (String × Nat)) (a : ArgT) (rest : List ArgT)
    (cand : String) (ha : a.aliases = []) (hini : initials a.destS = some cand)
    (hc : cand ≠ a.destS) :
    shortcutsGo m (a :: rest) =
      (match shortcutsGo (bumpCount m cand) rest with
       | .error e => .error e
       | .ok (r, m2) =>
         .ok ({ a with aliases :=
                  [if getCount (bumpCount m cand) cand > 1 then
                     cand ++ toString (getCount (bumpCount m cand) cand)
                   else cand] } :: r, m2)) := by
  rw [shortcutsGo.eq_def]
  dsimp only
  rw [if_neg (by simp [ha]), hini]
  dsimp only
  rw [if_neg hc]

theorem shortcutsGo_erase : ∀ (l : List ArgT) (m out m2),
    shortcutsGo m l = .ok (out, m2) →
    out.map eraseAliases = l.map eraseAliases := by
  intro l
  induction l with
  | nil =>
    intro m out m2 h
    simp [shortcutsGo] at h
    simp [h.1.symm]
  | cons a rest ih =>
    intro m out m2 h
    by_cases hskip : a.aliases ≠ [] ∨ initials a.destS = some a.destS
    · rw [shortcutsGo_cons_skip m a rest hskip] at h
      cases hgo : shortcutsGo m rest with
      | error e => rw [hgo] at h; cases h
      | ok pr =>
        obtain ⟨r, m3⟩ := pr
        rw [hgo] at h
        simp at h
        simp [← h.1, List.map, ih m r m3 hgo]
    · push_neg at hskip
      obtain ⟨ha, hne⟩ := hskip
      have ha2 : a.aliases = [] := by
        by_contra hc
        exact hc (by revert ha; simp)
      cases hini : initials a.destS with
      | none =>
        rw [shortcutsGo_cons_err m a rest ha2 hini] at h
        cases h
      | some cand =>
        have hc : cand ≠ a.destS := by
          intro hq
          exact hne (hq ▸ hini)
        rw [shortcutsGo_cons_assign m a rest cand ha2 hini hc] at h
        cases hgo : shortcutsGo (bumpCount m cand) rest with
        | error e => rw [hgo] at h; cases h
        | ok pr =>
          obtain ⟨r, m3⟩ := pr
          rw [hgo] at h
          simp at h
          simp [← h.1, List.map, ih (bumpCount m cand) r m3 hgo, eraseAliases]

theorem shortcutsGo_post : ∀ (l : List ArgT) (m out m2),
    shortcutsGo m l = .ok (out, m2) →
    ∀ a ∈ out, a.aliases ≠ [] ∨ initials a.destS = some a.destS := by
  intro l
  induction l with
  | nil =>
    intro m out m2 h
    simp [shortcutsGo] at h
    rw [h.1]
    intro b hb
    cases hb
  | cons a rest ih =>
    intro m out m2 h
    by_cases hskip : a.aliases ≠ [] ∨ initials a.destS = some a.destS
    · rw [shortcutsGo_cons_skip m a rest hskip] at h
      cases hgo : shortcutsGo m rest with
      | error e => rw [hgo] at h; cases h
      | ok pr =>
        obtain ⟨r, m3⟩ := pr
        rw [hgo] at h
        simp at h
        intro b hb
        rw [← h.1] at hb
        cases hb with
        | head => exact hskip
        | tail _ htl => exact ih m r m3 hgo b htl
    · push_neg at hskip
      obtain ⟨ha, hne⟩ := hskip
      have ha2 : a.aliases = [] := by
        by_contra hcc
        exact hcc (by revert ha; simp)
      cases hini : initials a.destS with
      | none =>
        rw [shortcutsGo_cons_err m a rest ha2 hini] at h
        cases h
      | some cand =>
        have hc : cand ≠ a.destS := by
          intro hq
          exact hne (hq ▸ hini)
        rw [shortcutsGo_cons_assign m a rest cand ha2 hini hc] at h
        cases hgo : shortcutsGo (bumpCount m cand) rest with
        | error e => rw [hgo] at h; cases h
        | ok pr =>
          obtain ⟨r, m3⟩ := pr
          rw [hgo] at h
          simp at h
          intro b hb
          rw [← h.1] at hb
          cases hb with
          | head => left; simp
          | tail _ htl => exact ih (bumpCount m cand) r m3 hgo b htl

theorem shortcutsGo_all_skip : ∀ (l : List ArgT) (m : List (String × Nat)),
    (∀ a ∈ l, a.aliases ≠ [] ∨ initials a.destS = some a.destS) →
    shortcutsGo m l = .ok (l, m) := by
  intro l
  induction l with
  | nil => intro m _; rfl
  | cons a rest ih =>
    intro m hall
    rw [shortcutsGo_cons_skip m a rest (hall a (List.mem_cons_self a rest))]
    rw [ih m (fun b hb => hall b (List.mem_cons_of_mem a hb))]

theorem seedFold_congr : ∀ (l1 l2 : List ArgT) (m0 : List (String × Nat)),
    l1.map ArgT.destS = l2.map ArgT.destS →
    l1.foldl (fun m a => bumpCount m a.destS) m0 =
      l2.foldl (fun m a => bumpCount m a.destS) m0 := by
  intro l1
  induction l1 with
  | nil =>
    intro l2 m0 h
    cases l2 with
    | nil => rfl
    | cons b bs => cases h
  | cons a rest ih =>
    intro l2 m0 h
    cases l2 with
    | nil => cases h
    | cons b bs =>
      simp at h
      simp [List.foldl, h.1]
      exact ih bs _ h.2


/-- C6: the Shortcut Assigner is idempotent — re-running `_make_shortcuts`
on the result of a successful run succeeds and changes nothing. -/
theorem make_shortcuts_idem (args out : List ArgT)
    (h : _make_shortcuts args = .ok out) :
    _make_shortcuts out = .ok out := by
  unfold _make_shortcuts at h ⊢
  dsimp only at h ⊢
  cases hgo : shortcutsGo (args.foldl (fun m a => bumpCount m a.destS) []) args with
  | error e => rw [hgo] at h; cases h
  | ok pr =>
    obtain ⟨r, m2⟩ := pr
    rw [hgo] at h
    have h2 : r = out := by
      have h3 : (Except.ok r : Except PyErr (List ArgT)) = .ok out := h
      injection h3
    subst h2
    have hmapD : ∀ lx : List ArgT, lx.map ArgT.destS = (lx.map eraseAliases).map ArgT.destS := by
      intro lx
      rw [List.map_map]
      rfl
    have hdest : r.map ArgT.destS = args.map ArgT.destS := by
      rw [hmapD r, hmapD args, shortcutsGo_erase args _ r m2 hgo]
    rw [seedFold_congr r args [] hdest]
    rw [shortcutsGo_all_skip r _ (shortcutsGo_post args _ r m2 hgo)]
    rfl

/-- C6 witness: idempotence applied to a concrete one-descriptor list. -/
theorem make_shortcuts_idem_witness :
    _make_shortcuts [{ dest := some "a_b" }] = .ok [{ dest := some "a_b", aliases := ["ab"] }] ∧
    _make_shortcuts [{ dest := some "a_b", aliases := ["ab"] }] =
      .ok [{ dest := some "a_b", aliases := ["ab"] }] :=
  ⟨by decide, make_shortcuts_idem [{ dest := some "a_b" }] [{ dest := some "a_b", aliases := ["ab"] }] (by decide)⟩


/-- C5 counterexample: with descriptors `ab` and `a_b`, the second
descriptor is the first (and only) one to use the candidate `ab`, yet the
code suffixes it to `ab2` because the usage counters are pre-seeded with
every destination name — the claim, which counts only candidate usage,
predicts the unsuffixed `ab`. -/
theorem make_shortcuts_claim_cex :
    _make_shortcuts [{ dest := some "ab" }, { dest := some "a_b" }] =
      .ok [{ dest := some "ab", aliases := ["a"] }, { dest := some "a_b", aliases := ["ab2"] }] ∧
    makeShortcutsClaimed [{ dest := some "ab" }, { dest := some "a_b" }] =
      .ok [{ dest := some "ab", aliases := ["a"] }, { dest := some "a_b", aliases := ["ab"] }] ∧
    _make_shortcuts [{ dest := some "ab" }, { dest := some "a_b" }] ≠
      makeShortcutsClaimed [{ dest := some "ab" }, { dest := some "a_b" }] := by
  refine ⟨by decide, by decide, by decide⟩

theorem getCount_seedFold (l : List ArgT) (m0 : List (String × Nat)) (k : String) :
    getCount (l.foldl (fun m a => bumpCount m a.destS) m0) k =
      getCount m0 k + (l.filter (fun a => a.destS == k)).length := by
  induction l generalizing m0 with
  | nil => simp
  | cons a rest ih =>
    simp only [List.foldl, List.filter]
    rw [ih (bumpCount m0 a.destS)]
    rw [getCount_bumpCount]
    by_cases h : a.destS = k
    · simp [h]
      omega
    · have hb : (a.destS == k) = false := beq_eq_false_iff_ne.mpr h
      have hk : ¬ (k = a.destS) := fun hc => h hc.symm
      simp [hb, hk]



theorem shortcutsGo_assigns : ∀ (l : List ArgT) (m out m2),
    shortcutsGo m l = .ok (out, m2) →
    out.length = l.length ∧
    ∀ i (hi : i < l.length) (ho : i < out.length),
      (shortcutCandidate (l.get ⟨i, hi⟩) = Option.none →
        out.get ⟨i, ho⟩ = l.get ⟨i, hi⟩) ∧
      (∀ c, shortcutCandidate (l.get ⟨i, hi⟩) = some c →
        out.get ⟨i, ho⟩ = { l.get ⟨i, hi⟩ with
          aliases := [mkAlias c (getCount m c +
            ((l.take i).filter (fun b => shortcutCandidate b == some c)).length + 1)] }) := by
  intro l
  induction l with
  | nil =>
    intro m out m2 h
    simp [shortcutsGo] at h
    refine ⟨by simp [h.1.symm], ?_⟩
    intro i hi
    exact absurd hi (by simp)
  | cons a rest ih =>
    intro m out m2 h
    by_cases hal : a.aliases = []
    · cases hini : initials a.destS with
      | none =>
        rw [shortcutsGo_cons_err m a rest hal hini] at h
        cases h
      | some cand =>
        by_cases hcd : cand = a.destS
        · have hskip : a.aliases ≠ [] ∨ initials a.destS = some a.destS :=
            Or.inr (hcd ▸ hini)
          rw [shortcutsGo_cons_skip m a rest hskip] at h
          cases hgo : shortcutsGo m rest with
          | error e => rw [hgo] at h; cases h
          | ok pr =>
            obtain ⟨r, m3⟩ := pr
            rw [hgo] at h
            have hout : a :: r = out := by
              have h3 : (Except.ok (a :: r, m3) : Except PyErr (List ArgT × List (String × Nat))) = .ok (out, m2) := h
              injection h3 with h4
              exact congrArg Prod.fst h4
            subst hout
            have hcnone : shortcutCandidate a = Option.none := by
              unfold shortcutCandidate
              simp [hal, hini, hcd]
            obtain ⟨hlen, hspec⟩ := ih m r m3 hgo
            refine ⟨by simp [hlen], ?_⟩
            intro i hi ho
            cases i with
            | zero =>
              refine ⟨fun _ => rfl, ?_⟩
              intro c hc
              simp only [List.get] at hc
              rw [hcnone] at hc
              cases hc
            | succ n =>
              have hi2 : n < rest.length := by simpa using hi
              have ho2 : n < r.length := by simpa using ho
              obtain ⟨hnone, hsome⟩ := hspec n hi2 ho2
              refine ⟨?_, ?_⟩
              · intro hc
                simp only [List.get_cons_succ] at *
                exact hnone hc
              · intro c hc
                simp only [List.get_cons_succ] at *
                have := hsome c hc
                rw [this]
                have hfil : ((a :: rest).take (n + 1)).filter (fun b => shortcutCandidate b == some c) =
                    (rest.take n).filter (fun b => shortcutCandidate b == some c) := by
                  simp [List.take, List.filter, hcnone]
                rw [hfil]
        · rw [shortcutsGo_cons_assign m a rest cand hal hini hcd] at h
          cases hgo : shortcutsGo (bumpCount m cand) rest with
          | error e => rw [hgo] at h; cases h
          | ok pr =>
            obtain ⟨r, m3⟩ := pr
            rw [hgo] at h
            have hout : ({ a with aliases :=
                [if getCount (bumpCount m cand) cand > 1 then
                   cand ++ toString (getCount (bumpCount m cand) cand)
                 else cand] } :: r) = out := by
              have h3 : (Except.ok (({ a with aliases :=
                  [if getCount (bumpCount m cand) cand > 1 then
                     cand ++ toString (getCount (bumpCount m cand) cand)
                   else cand] } :: r), m3) : Except PyErr (List ArgT × List (String × Nat))) = .ok (out, m2) := h
              injection h3 with h4
              exact congrArg Prod.fst h4
            subst hout
            have hcand : shortcutCandidate a = some cand := by
              unfold shortcutCandidate
              simp [hal, hini, hcd]
            obtain ⟨hlen, hspec⟩ := ih (bumpCount m cand) r m3 hgo
            refine ⟨by simp [hlen], ?_⟩
            intro i hi ho
            cases i with
            | zero =>
              refine ⟨?_, ?_⟩
              · intro hc
                simp only [List.get] at hc
                rw [hcand] at hc
                cases hc
              · intro c hc
                simp only [List.get] at hc
                rw [hcand] at hc
                injection hc with hc2
                subst hc2
                have hgc : getCount (bumpCount m cand) cand = getCount m cand + 1 := by
                  rw [getCount_bumpCount]
                  simp
                simp only [List.get]
                rw [show ((a :: rest).take 0).filter (fun b => shortcutCandidate b == some cand) = [] from rfl]
                simp only [List.length_nil, Nat.add_zero]
                unfold mkAlias
                rw [hgc]
            | succ n =>
              have hi2 : n < rest.length := by simpa using hi
              have ho2 : n < r.length := by simpa using ho
              obtain ⟨hnone, hsome⟩ := hspec n hi2 ho2
              refine ⟨?_, ?_⟩
              · intro hc
                simp only [List.get_cons_succ] at *
                exact hnone hc
              · intro c hc
                simp only [List.get_cons_succ] at *
                have hr := hsome c hc
                rw [hr]
                have hcount : getCount (bumpCount m cand) c +
                    ((rest.take n).filter (fun b => shortcutCandidate b == some c)).length + 1 =
                    getCount m c +
                    (((a :: rest).take (n + 1)).filter (fun b => shortcutCandidate b == some c)).length + 1 := by
                  rw [getCount_bumpCount]
                  have hfil : ((a :: rest).take (n + 1)).filter (fun b => shortcutCandidate b == some c) =
                      (if shortcutCandidate a == some c then [a] else []) ++
                        (rest.take n).filter (fun b => shortcutCandidate b == some c) := by
                    simp only [List.take, List.filter]
                    by_cases hcc : shortcutCandidate a == some c
                    · simp [hcc]
                    · simp [hcc]
                  rw [hfil]
                  by_cases hcc : c = cand
                  · subst hcc
                    have : (shortcutCandidate a == some c) = true := by
                      rw [hcand]
                      simp
                    simp [this]
                    omega
                  · have : (shortcutCandidate a == some c) = false := by
                      rw [hcand]
                      simp
                      exact fun hq => hcc hq.symm
                    simp [this, hcc]
                rw [hcount]
    · have hskip : a.aliases ≠ [] ∨ initials a.destS = some a.destS := Or.inl hal
      rw [shortcutsGo_cons_skip m a rest hskip] at h
      cases hgo : shortcutsGo m rest with
      | error e => rw [hgo] at h; cases h
      | ok pr =>
        obtain ⟨r, m3⟩ := pr
        rw [hgo] at h
        have hout : a :: r = out := by
          have h3 : (Except.ok (a :: r, m3) : Except PyErr (List ArgT × List (String × Nat))) = .ok (out, m2) := h
          injection h3 with h4
          exact congrArg Prod.fst h4
        subst hout
        have hcnone : shortcutCandidate a = Option.none := by
          unfold shortcutCandidate
          simp [hal]
        obtain ⟨hlen, hspec⟩ := ih m r m3 hgo
        refine ⟨by simp [hlen], ?_⟩
        intro i hi ho
        cases i with
        | zero =>
          refine ⟨fun _ => rfl, ?_⟩
          intro c hc
          simp only [List.get] at hc
          rw [hcnone] at hc
          cases hc
        | succ n =>
          have hi2 : n < rest.length := by simpa using hi
          have ho2 : n < r.length := by simpa using ho
          obtain ⟨hnone, hsome⟩ := hspec n hi2 ho2
          refine ⟨?_, ?_⟩
          · intro hc
            simp only [List.get_cons_succ] at *
            exact hnone hc
          · intro c hc
            simp only [List.get_cons_succ] at *
            have := hsome c hc
            rw [this]
            have hfil : ((a :: rest).take (n + 1)).filter (fun b => shortcutCandidate b == some c) =
                (rest.take n).filter (fun b => shortcutCandidate b == some c) := by
              simp [List.take, List.filter, hcnone]
            rw [hfil]


/-- C5 (amended): for each descriptor with an empty alias set whose
initials differ from its destination, the generated alias is the candidate
suffixed with N whenever N exceeds one, where N counts one for every
descriptor in the whole list whose destination equals the candidate, plus
one for every earlier descriptor that generated the same candidate, plus
one for this use; descriptors without such a candidate are unchanged. -/
theorem make_shortcuts_amended (args out : List ArgT)
    (h : _make_shortcuts args = .ok out) :
    out.length = args.length ∧
    ∀ i (hi : i < args.length) (ho : i < out.length),
      (shortcutCandidate (args.get ⟨i, hi⟩) = Option.none →
        out.get ⟨i, ho⟩ = args.get ⟨i, hi⟩) ∧
      (∀ c, shortcutCandidate (args.get ⟨i, hi⟩) = some c →
        out.get ⟨i, ho⟩ = { args.get ⟨i, hi⟩ with
          aliases := [mkAlias c ((args.filter (fun b => b.destS == c)).length +
            ((args.take i).filter (fun b => shortcutCandidate b == some c)).length + 1)] }) := by
  unfold _make_shortcuts at h
  dsimp only at h
  cases hgo : shortcutsGo (args.foldl (fun m a => bumpCount m a.destS) []) args with
  | error e => rw [hgo] at h; cases h
  | ok pr =>
    obtain ⟨r, m2⟩ := pr
    rw [hgo] at h
    have h2 : r = out := by
      have h3 : (Except.ok r : Except PyErr (List ArgT)) = .ok out := h
      injection h3
    subst h2
    obtain ⟨hlen, hspec⟩ := shortcutsGo_assigns args _ r m2 hgo
    refine ⟨hlen, ?_⟩
    intro i hi ho
    obtain ⟨hnone, hsome⟩ := hspec i hi ho
    refine ⟨hnone, ?_⟩
    intro c hc
    have hr := hsome c hc
    rw [hr]
    have hseed : getCount (args.foldl (fun m a => bumpCount m a.destS) []) c =
        (args.filter (fun b => b.destS == c)).length := by
      rw [getCount_seedFold]
      simp [getCount]
    rw [hseed]

/-- C5 witness: the amended characterization applied to the two-descriptor
list whose second candidate collides with the first destination. -/
theorem make_shortcuts_amended_witness :
    ([{ dest := some "ab", aliases := ["a"] }, { dest := some "a_b", aliases := ["ab2"] }] :
        List ArgT).get ⟨1, by decide⟩ =
      ({ dest := some "a_b", aliases := ["ab2"] } : ArgT) :=
  ((make_shortcuts_amended [{ dest := some "ab" }, { dest := some "a_b" }]
      [{ dest := some "ab", aliases := ["a"] }, { dest := some "a_b", aliases := ["ab2"] }]
      (by decide)).2 1 (by decide) (by decide)).2 "ab" (by decide)


/-- C3 counterexample: for a boolean descriptor whose default is exactly
`True`, `inject_bool` registers only the negated `no-` flag, so no
affirmative spelling exists and the affirmative token is a usage error on
the full pipeline — the claim's always-registered affirmative flag is
false as stated. -/
theorem inject_bool_claim_cex :
    (ArgT.inject_bool { dest := some "wait2", type := some (.ofTy .bool), default := .bool true }
        (.mk [] [] [])).actionsF =
      [{ opts := ["--no-wait2"], dest := "wait2", default := .bool true, kind := .storeFalse }] ∧
    (∀ act ∈ (ArgT.inject_bool { dest := some "wait2", type := some (.ofTy .bool), default := .bool true }
        (.mk [] [] [])).actionsF, "--wait2" ∉ act.opts) ∧
    parse_args (.mk "W" [.mk "wait2" (some .bool) (some (.pv (.bool true)))]) ["--wait2"] {} =
      .error (.usageError "unrecognized arguments: --wait2") := by
  refine ⟨by decide, by decide, rfl⟩

/-- C3 (amended): a boolean-typed descriptor with boolean-flag mode on and
no list arity registers only the affirmative `store_true` flag when the
default is exactly `False`, only the `no-`-prefixed `store_false` flag when
the default is exactly `True`, and the mutually exclusive pair otherwise,
re-applying the declared default through `set_defaults` in every case; in
particular `verbose: bool = False` parsed with `["--verbose"]` yields
`verbose=True` and parsed with `[]` yields `verbose=False`. -/
theorem inject_bool_amended :
    (∀ (a : ArgT) (p : ParserR),
      a.bool_flag = true →
      a.nargs ≠ some .star → a.nargs ≠ some .plus →
      (a.inject_bool p).defaultsF = dictSet p.defaultsF a.destS a.default ∧
      (a.inject_bool p).actionsF =
        (if a.default = .bool false then
          p.actionsF ++ [{ opts := a.namesL "", dest := a.destS, default := a.default,
                           kind := .storeTrue }]
         else if a.default = .bool true then
          p.actionsF ++ [{ opts := a.namesL "no-", dest := a.destS, default := a.default,
                           kind := .storeFalse }]
         else
          p.actionsF ++ [{ opts := a.namesL "", dest := a.destS, default := a.default,
                           kind := .storeTrue },
                         { opts := a.namesL "no-", dest := a.destS, default := a.default,
                           kind := .storeFalse }])) ∧
    (parse_args (.mk "V" [.mk "verbose" (some .bool) (some (.pv (.bool false)))]) ["--verbose"] {}).map
        (fun r => getPrim r "verbose") = .ok (some (.bool true)) ∧
    (parse_args (.mk "V" [.mk "verbose" (some .bool) (some (.pv (.bool false)))]) [] {}).map
        (fun r => getPrim r "verbose") = .ok (some (.bool false)) := by
  refine ⟨?_, by decide, by decide⟩
  intro a p h1 h2 h3
  have hcond : (a.bool_flag && !(a.nargs = some .star || a.nargs = some .plus)) = true := by
    simp [h1, h2, h3]
  unfold ArgT.inject_bool
  rw [if_pos hcond]
  by_cases hf : a.default = .bool false
  · simp only [if_pos hf]
    cases p
    exact ⟨rfl, rfl⟩
  · simp only [if_neg hf]
    by_cases ht : a.default = .bool true
    · simp only [if_pos ht]
      cases p
      exact ⟨rfl, rfl⟩
    · simp only [if_neg ht]
      cases p
      refine ⟨rfl, ?_⟩
      simp [ParserR.addAction, ParserR.setDefaults, ParserR.actionsF]

/-- C3 witness: the amended registration characterization applied to a
concrete unresolved-default boolean descriptor on the empty parser. -/
theorem inject_bool_amended_witness :
    (ArgT.inject_bool { dest := some "q", type := some (.ofTy .bool) } (.mk [] [] [])).defaultsF =
      dictSet [] "q" .none ∧
    (ArgT.inject_bool { dest := some "q", type := some (.ofTy .bool) } (.mk [] [] [])).actionsF =
      [{ opts := ["-q"], dest := "q", default := .none, kind := .storeTrue },
       { opts := ["--no-q"], dest := "q", default := .none, kind := .storeFalse }] :=
  inject_bool_amended.1 { dest := some "q", type := some (.ofTy .bool) } (.mk [] [] [])
    rfl (by decide) (by decide)


theorem destFill_idem (key : String) (d : Option String) :
    destFill key (destFill key d) = destFill key d := by
  cases d with
  | none =>
    unfold destFill
    by_cases hk : key = "" <;> simp [hk]
  | some s =>
    unfold destFill
    by_cases hs : s = ""
    · by_cases hk : key = "" <;> simp [hs, hk]
    · simp [hs]

theorem typeFill_idem (t : PyType) (x : Option TypeFn) :
    typeFill t (typeFill t x) = typeFill t x := by
  cases x <;> rfl

theorem nargsFill_idem (ac : String) (inferredN ng : Option NargsV) :
    nargsFill ac inferredN (nargsFill ac inferredN ng) = nargsFill ac inferredN ng := by
  unfold nargsFill
  by_cases hac : ac ≠ "append"
  · simp only [if_pos hac]
    cases ng with
    | none =>
      cases inferredN with
      | none => rfl
      | some v => cases v <;> (try rfl) <;> (rename_i nn; cases nn <;> rfl)
    | some v =>
      cases v with
      | num nn =>
        cases nn with
        | zero =>
          cases inferredN with
          | none => rfl
          | some w => cases w <;> (try rfl) <;> (rename_i mm; cases mm <;> rfl)
        | succ k => rfl
      | star => rfl
      | plus => rfl
      | question => rfl
  · simp only [if_neg hac]

theorem fillArg_idem (o : ReadOpts) (key : String) (typ : PyType) (nargs : Option NargsV)
    (a : ArgT) :
    fillArg o key typ nargs (fillArg o key typ nargs a) = fillArg o key typ nargs a := by
  obtain ⟨ov, obf, ood⟩ := o
  obtain ⟨dest, ty, dv, ng, al, ac, bf, od, ps⟩ := a
  cases ov <;>
    simp [fillArg, destFill_idem, typeFill_idem, nargsFill_idem]


/-- C9: with the global override off, reading a field whose class value is
an explicit `Arg` object reuses that object with only the missing
attributes filled in — destination from the field name when falsy, type
from the inferred type when unset, arity from the inferred arity when
falsy and the action is not `append` — and everything else untouched; the
mutation is applied to the class declaration itself, so a subsequent read
of the same structure definition receives the already-mutated object and
leaves it unchanged. -/
theorem read_arg_field_fill (o : ReadOpts) (ann : List (String × PyType)) (n : String)
    (annT : Option PyType) (a : ArgT) (typ : PyType) (nargs : Option NargsV)
    (hov : o.override = false)
    (hdn : strStartsWith n "__" = false)
    (hinf : _get_type_and_nargs (ann.lookup n) a.default = .ok (typ, nargs)) :
    readDecl o ann (.mk n annT (some (.argD a))) =
      .ok (some (.plain n (fillArg o n typ nargs a)),
           .mk n annT (some (.argD (fillArg o n typ nargs a)))) ∧
    (fillArg o n typ nargs a).default = a.default ∧
    (fillArg o n typ nargs a).aliases = a.aliases ∧
    (fillArg o n typ nargs a).action = a.action ∧
    (fillArg o n typ nargs a).pos = a.pos ∧
    (fillArg o n typ nargs a).bool_flag = a.bool_flag ∧
    (fillArg o n typ nargs a).one_dash = a.one_dash ∧
    (∀ s, a.dest = some s → s ≠ "" → (fillArg o n typ nargs a).dest = some s) ∧
    (a.dest = Option.none ∨ a.dest = some "" → (fillArg o n typ nargs a).dest = some n) ∧
    (∀ t, a.type = some t → (fillArg o n typ nargs a).type = some t) ∧
    (a.type = Option.none → (fillArg o n typ nargs a).type = some (.ofTy typ)) ∧
    (a.action = "append" → (fillArg o n typ nargs a).nargs = a.nargs) ∧
    (a.action ≠ "append" → a.nargs = Option.none ∨ a.nargs = some (.num 0) →
      (fillArg o n typ nargs a).nargs = nargs) ∧
    (a.action ≠ "append" → a.nargs ≠ Option.none → a.nargs ≠ some (.num 0) →
      (fillArg o n typ nargs a).nargs = a.nargs) ∧
    readDecl o ann (.mk n annT (some (.argD (fillArg o n typ nargs a)))) =
      .ok (some (.plain n (fillArg o n typ nargs a)),
           .mk n annT (some (.argD (fillArg o n typ nargs a)))) := by
  have hfill : ∀ b : ArgT, b.default = a.default →
      readDecl o ann (.mk n annT (some (.argD b))) =
        .ok (some (.plain n (fillArg o n typ nargs b)),
             .mk n annT (some (.argD (fillArg o n typ nargs b)))) := by
    intro b hb
    unfold readDecl readPlainField
    rw [hdn]
    dsimp only
    rw [hb, hinf]
    rfl
  have hone : fillArg o n typ nargs a =
      { a with
          dest := destFill n a.dest,
          type := typeFill typ a.type,
          nargs := nargsFill a.action nargs a.nargs } := by
    simp [fillArg, hov]
  refine ⟨hfill a rfl, ?_, ?_, ?_, ?_, ?_, ?_, ?_, ?_, ?_, ?_, ?_, ?_, ?_, ?_⟩
  · rw [hone]
  · rw [hone]
  · rw [hone]
  · rw [hone]
  · rw [hone]
  · rw [hone]
  · intro s hs hne
    rw [hone]
    simp [destFill, hs, hne]
  · intro hd
    rw [hone]
    cases hd with
    | inl h => simp [destFill, h]
    | inr h => simp [destFill, h]
  · intro t ht
    rw [hone]
    simp [typeFill, ht]
  · intro ht
    rw [hone]
    simp [typeFill, ht]
  · intro hap
    rw [hone]
    simp only []
    unfold nargsFill
    rw [if_neg (by simp [hap])]
  · intro hap hng
    rw [hone]
    simp only []
    unfold nargsFill
    rw [if_pos hap]
    cases hng with
    | inl h => rw [h]
    | inr h => rw [h]
  · intro hap h1 h2
    rw [hone]
    simp only []
    unfold nargsFill
    rw [if_pos hap]
    cases hng : a.nargs with
    | none => exact absurd hng h1
    | some v =>
      cases v with
      | num nn =>
        cases nn with
        | zero => exact absurd hng h2
        | succ k => rfl
      | star => rfl
      | plus => rfl
      | question => rfl
  · have h2 := hfill (fillArg o n typ nargs a) (by rw [hone])
    rw [fillArg_idem] at h2
    exact h2


/-- C9 witness: the fill-in behavior applied to a concrete `Arg`-valued
field, showing the filled object, the mutated declaration, and the values
preserved. -/
theorem read_arg_field_fill_witness :
    readDecl {} [("x", .int)] (.mk "x" (some .int) (some (.argD { aliases := ["xx"], default := .int 5 }))) =
      .ok (some (.plain "x" { dest := some "x", type := some (.ofTy .int), default := .int 5, aliases := ["xx"] }),
           .mk "x" (some .int) (some (.argD { dest := some "x", type := some (.ofTy .int), default := .int 5, aliases := ["xx"] }))) :=
  (read_arg_field_fill {} [("x", .int)] "x" (some .int) { aliases := ["xx"], default := .int 5 }
      .int Option.none rfl (by decide) (by decide)).1


theorem lookupR_setattrR (r : ResI) (k k' : String) (v : RVal) :
    lookupR (setattrR r k v) k' = if k' = k then some v else lookupR r k' := by
  unfold lookupR setattrR
  rw [show (ResI.mk r.clsNameF (updEntry r.assignedF k v)).assignedF = updEntry r.assignedF k v from rfl]
  exact lookup_updEntry r.assignedF k k' v

theorem lookupR_setArgsValues (r : ResI) (ns : NamespaceN) (args : List ArgT) (k : String)
    (h : ∀ a ∈ args, a.destS ≠ k) :
    lookupR (setArgsValues r ns args) k = lookupR r k := by
  induction args generalizing r with
  | nil => rfl
  | cons a rest ih =>
    unfold setArgsValues at *
    simp only [List.foldl]
    rw [ih (setattrR r a.destS (.prim (nsGet ns a.destS))) (fun b hb => h b (List.mem_cons_of_mem a hb))]
    rw [lookupR_setattrR]
    rw [if_neg (fun hc => h a (List.mem_cons_self a rest) hc.symm)]

theorem setValuesSubs_preserve : ∀ (subs : List (String × SubTree)) (pname : String)
    (res : ResI) (ns : NamespaceN) (res2 : ResI),
    setValuesSubs pname res ns subs = .ok res2 →
    ∀ k, k ∉ subs.map Prod.fst → lookupR res2 k = lookupR res k := by
  intro subs
  induction subs with
  | nil =>
    intro pname res ns res2 h k _
    have h2 : res = res2 := by
      have h3 : (Except.ok res : Except PyErr ResI) = .ok res2 := h
      injection h3
    rw [h2]
  | cons hd rest ih =>
    intro pname res ns res2 h k hk
    obtain ⟨name, t⟩ := hd
    have hkname : k ≠ name := by
      intro hc
      exact hk (by simp [hc])
    have hkrest : k ∉ rest.map Prod.fst := fun hc => hk (by simp [hc])
    unfold setValuesSubs at h
    by_cases hsel : nsGet ns (SUB_COMMAND_DEST_FMT pname) = .str name
    · rw [if_pos hsel] at h
      cases hget : (lookupR res name).getD (.inst (freshRes t)) with
      | inst r0 =>
        rw [hget] at h
        dsimp only at h
        cases htree : setValuesTree name r0 ns t with
        | error e => rw [htree] at h; cases h
        | ok r1 =>
          rw [htree] at h
          rw [ih pname _ ns res2 h k hkrest]
          rw [lookupR_setattrR]
          rw [if_neg hkname]
      | prim v =>
        rw [hget] at h
        dsimp only at h
        by_cases hemp : t.argsF.isEmpty && t.subsF.isEmpty
        · rw [if_pos hemp] at h
          rw [ih pname _ ns res2 h k hkrest]
          rw [lookupR_setattrR]
          rw [if_neg hkname]
        · rw [if_neg hemp] at h
          cases h
    · rw [if_neg hsel] at h
      rw [ih pname _ ns res2 h k hkrest]
      rw [lookupR_setattrR]
      rw [if_neg hkname]


theorem setValuesSubs_exclusive : ∀ (subs : List (String × SubTree)) (pname : String)
    (res : ResI) (ns : NamespaceN) (res2 : ResI),
    setValuesSubs pname res ns subs = .ok res2 →
    (subs.map Prod.fst).Nodup →
    (∀ nm ∈ subs.map Prod.fst, lookupR res nm = Option.none) →
    ∀ name t, (name, t) ∈ subs →
      (nsGet ns (SUB_COMMAND_DEST_FMT pname) = .str name →
        ∃ r1, lookupR res2 name = some (.inst r1)) ∧
      (nsGet ns (SUB_COMMAND_DEST_FMT pname) ≠ .str name →
        lookupR res2 name = some (.prim .none)) := by
  intro subs
  induction subs with
  | nil =>
    intro pname res ns res2 _ _ _ name t hmem
    cases hmem
  | cons hd rest ih =>
    intro pname res ns res2 h hnd hnone name t hmem
    obtain ⟨nm0, t0⟩ := hd
    have hres0 : lookupR res nm0 = Option.none := hnone nm0 (by simp)
    have hnm0rest : nm0 ∉ rest.map Prod.fst := by
      simp at hnd
      intro hc
      simp at hc
      obtain ⟨t2, ht2⟩ := hc
      exact hnd.1 t2 ht2
    have hndrest : (rest.map Prod.fst).Nodup := by
      simp at hnd ⊢
      exact hnd.2
    unfold setValuesSubs at h
    by_cases hsel : nsGet ns (SUB_COMMAND_DEST_FMT pname) = .str nm0
    · rw [if_pos hsel] at h
      rw [hres0] at h
      dsimp only [Option.getD] at h
      cases htree : setValuesTree nm0 (freshRes t0) ns t0 with
      | error e => rw [htree] at h; cases h
      | ok r1 =>
        rw [htree] at h
        cases hmem with
        | head =>
          refine ⟨fun _ => ?_, fun hns => absurd hsel hns⟩
          refine ⟨r1, ?_⟩
          rw [setValuesSubs_preserve rest pname _ ns res2 h name hnm0rest]
          rw [lookupR_setattrR]
          rw [if_pos rfl]
        | tail _ htl =>
          apply ih pname _ ns res2 h hndrest ?_ name t htl
          intro nm hnm
          rw [lookupR_setattrR]
          rw [if_neg ?_]
          · exact hnone nm (by simp [hnm])
          · intro hc
            exact hnm0rest (hc ▸ hnm)
    · rw [if_neg hsel] at h
      cases hmem with
      | head =>
        refine ⟨fun hns => absurd hns hsel, fun _ => ?_⟩
        rw [setValuesSubs_preserve rest pname _ ns res2 h name hnm0rest]
        rw [lookupR_setattrR]
        rw [if_pos rfl]
      | tail _ htl =>
        apply ih pname _ ns res2 h hndrest ?_ name t htl
        intro nm hnm
        rw [lookupR_setattrR]
        rw [if_neg ?_]
        · exact hnone nm (by simp [hnm])
        · intro hc
          exact hnm0rest (hc ▸ hnm)

/-- C1: after a successful bind onto a fresh result instance whose
descriptor destinations do not collide with sub-command names, every
declared sub-command field whose branch the selector chose holds a nested
instance, and every sub-command field whose branch was not chosen holds
`None` — never a stale default. -/
theorem set_values_sub_exclusive (pname cname : String) (ns : NamespaceN)
    (args : List ArgT) (subs : List (String × SubTree)) (res2 : ResI)
    (hnd : (subs.map Prod.fst).Nodup)
    (hdisj : ∀ a ∈ args, ∀ nm ∈ subs.map Prod.fst, a.destS ≠ nm)
    (h : setValues pname (.mk cname []) ns args subs = .ok res2) :
    ∀ name t, (name, t) ∈ subs →
      (nsGet ns (SUB_COMMAND_DEST_FMT pname) = .str name →
        ∃ r1, lookupR res2 name = some (.inst r1)) ∧
      (nsGet ns (SUB_COMMAND_DEST_FMT pname) ≠ .str name →
        lookupR res2 name = some (.prim .none)) := by
  unfold setValues at h
  apply setValuesSubs_exclusive subs pname _ ns res2 h hnd
  intro nm hnm
  rw [lookupR_setArgsValues _ ns args nm (fun a ha => hdisj a ha nm hnm)]
  rfl

/-- C1 witness: two sibling sub-commands `a` and `b` with `a` selected —
`a` holds a populated instance and `b` holds `None`; the symmetric facts
for `b` come from the same application. -/
theorem set_values_sub_exclusive_witness :
    ((nsGet [(SUB_COMMAND_DEST_FMT "root", .str "a"), ("x", .int 7)]
        (SUB_COMMAND_DEST_FMT "root") = .str "a" →
      ∃ r1, lookupR (.mk "M" [("a", .inst (.mk "A" [("x", .prim (.int 7))])), ("b", .prim .none)])
        "a" = some (.inst r1)) ∧
     (nsGet [(SUB_COMMAND_DEST_FMT "root", .str "a"), ("x", .int 7)]
        (SUB_COMMAND_DEST_FMT "root") ≠ .str "a" →
      lookupR (.mk "M" [("a", .inst (.mk "A" [("x", .prim (.int 7))])), ("b", .prim .none)])
        "a" = some (.prim .none))) ∧
    ((nsGet [(SUB_COMMAND_DEST_FMT "root", .str "a"), ("x", .int 7)]
        (SUB_COMMAND_DEST_FMT "root") = .str "b" →
      ∃ r1, lookupR (.mk "M" [("a", .inst (.mk "A" [("x", .prim (.int 7))])), ("b", .prim .none)])
        "b" = some (.inst r1)) ∧
     (nsGet [(SUB_COMMAND_DEST_FMT "root", .str "a"), ("x", .int 7)]
        (SUB_COMMAND_DEST_FMT "root") ≠ .str "b" →
      lookupR (.mk "M" [("a", .inst (.mk "A" [("x", .prim (.int 7))])), ("b", .prim .none)])
        "b" = some (.prim .none))) :=
  ⟨set_values_sub_exclusive "root" "M" [(SUB_COMMAND_DEST_FMT "root", .str "a"), ("x", .int 7)]
      [] [("a", .node (.mk "A" []) [{ dest := some "x" }] []), ("b", .node (.mk "B" []) [] [])]
      (.mk "M" [("a", .inst (.mk "A" [("x", .prim (.int 7))])), ("b", .prim .none)])
      (by simp) (by intro a ha; cases ha) rfl
      "a" (.node (.mk "A" []) [{ dest := some "x" }] []) (List.Mem.head _),
   set_values_sub_exclusive "root" "M" [(SUB_COMMAND_DEST_FMT "root", .str "a"), ("x", .int 7)]
      [] [("a", .node (.mk "A" []) [{ dest := some "x" }] []), ("b", .node (.mk "B" []) [] [])]
      (.mk "M" [("a", .inst (.mk "A" [("x", .prim (.int 7))])), ("b", .prim .none)])
      (by simp) (by intro a ha; cases ha) rfl
      "b" (.node (.mk "B" []) [] []) (List.Mem.tail _ (List.Mem.head _))⟩


theorem lookup_append {α : Type} (l1 l2 : List (String × α)) (k : String) :
    List.lookup k (l1 ++ l2) = (List.lookup k l1).orElse (fun _ => List.lookup k l2) := by
  induction l1 with
  | nil => simp [List.lookup]
  | cons kv rest ih =>
    by_cases h : k = kv.1
    · simp [List.lookup, h]
    · have hb : (k == kv.1) = false := beq_eq_false_iff_ne.mpr h
      obtain ⟨k1, v1⟩ := kv
      simp only [List.cons_append, List.lookup]
      simp only at hb
      rw [hb]
      exact ih

theorem updEntry_absent {α : Type} (m : List (String × α)) (k : String) (v : α)
    (h : List.lookup k m = Option.none) :
    updEntry m k v = m ++ [(k, v)] := by
  induction m with
  | nil => rfl
  | cons kv rest ih =>
    unfold updEntry
    by_cases hk : kv.1 = k
    · exfalso
      obtain ⟨k1, v1⟩ := kv
      simp only at hk
      rw [hk] at h
      simp [List.lookup] at h
    · rw [if_neg hk]
      have h2 : List.lookup k rest = Option.none := by
        obtain ⟨k1, v1⟩ := kv
        simp only [List.lookup] at h
        cases hq : k == k1
        · rw [hq] at h
          exact h
        · rw [hq] at h
          cases h
      rw [ih h2]
      simp

theorem initDefaults_base_lookup (k : String) : ∀ (acts : List Action) (ns0 : NamespaceN),
    List.lookup k ns0 = Option.none →
    List.lookup k (acts.foldl
      (fun ns a => if (List.lookup a.dest ns).isSome then ns else ns ++ [(a.dest, a.default)]) ns0) =
      (acts.find? (fun a => a.dest == k)).map Action.default := by
  intro acts
  induction acts with
  | nil =>
    intro ns0 h0
    simp [List.find?, h0]
  | cons a rest ih =>
    intro ns0 h0
    simp only [List.foldl, List.find?]
    by_cases hk : a.dest = k
    · rw [hk] at *
      rw [h0]
      simp only [Option.isSome_none, Bool.false_eq_true, if_false]
      have hstable : ∀ (acts2 : List Action) (ns1 : NamespaceN) (v : PyVal),
          List.lookup k ns1 = some v →
          List.lookup k (acts2.foldl
            (fun ns a => if (List.lookup a.dest ns).isSome then ns else ns ++ [(a.dest, a.default)]) ns1) =
            some v := by
        intro acts2
        induction acts2 with
        | nil => intro ns1 v h; exact h
        | cons b rest2 ih2 =>
          intro ns1 v h
          simp only [List.foldl]
          by_cases hb : (List.lookup b.dest ns1).isSome
          · rw [if_pos hb]
            exact ih2 ns1 v h
          · rw [if_neg hb]
            apply ih2
            rw [lookup_append]
            rw [h]
            rfl
      rw [hstable rest (ns0 ++ [(k, a.default)]) a.default ?_]
      · simp
      · rw [lookup_append, h0]
        simp [List.lookup]
    · have hbk : (a.dest == k) = false := beq_eq_false_iff_ne.mpr hk
      rw [hbk]
      by_cases hpres : (List.lookup a.dest ns0).isSome
      · rw [if_pos hpres]
        exact ih ns0 h0
      · rw [if_neg hpres]
        apply ih
        rw [lookup_append, h0]
        simp [List.lookup, beq_eq_false_iff_ne.mpr (fun hc => hk hc.symm)]


theorem lookup_none_forall {α : Type} (l : List (String × α)) (k : String)
    (h : List.lookup k l = Option.none) : ∀ kv ∈ l, kv.1 ≠ k := by
  induction l with
  | nil => intro kv hkv; cases hkv
  | cons kv0 rest ih =>
    intro kv hkv
    obtain ⟨k0, v0⟩ := kv0
    simp only [List.lookup] at h
    cases hq : k == k0 with
    | true => rw [hq] at h; cases h
    | false =>
      rw [hq] at h
      cases hkv with
      | head =>
        intro hc
        simp only at hc
        rw [hc] at hq
        simp at hq
      | tail _ htl => exact ih h kv htl

theorem filter_updEntry_other {α : Type} (l : List (String × α)) (c k : String) (v : α)
    (h : c ≠ k) :
    (updEntry l c v).filter (fun kv => kv.1 == k) = l.filter (fun kv => kv.1 == k) := by
  induction l with
  | nil =>
    simp [updEntry, List.filter, beq_eq_false_iff_ne.mpr h]
  | cons kv0 rest ih =>
    unfold updEntry
    by_cases hc : kv0.1 = c
    · rw [if_pos hc]
      simp only [List.filter]
      rw [show ((c, v).1 == k) = false from beq_eq_false_iff_ne.mpr h]
      rw [show (kv0.1 == k) = false from beq_eq_false_iff_ne.mpr (hc ▸ h)]
    · rw [if_neg hc]
      simp only [List.filter]
      cases hq : kv0.1 == k
      · exact ih
      · rw [ih]

theorem overlay_lookup (k : String) : ∀ (entries : List (String × PyVal)) (ns0 : NamespaceN),
    (entries.filter (fun kv => kv.1 == k) = [] →
      List.lookup k (entries.foldl (fun ns kv => dictSet ns kv.1 kv.2) ns0) =
        List.lookup k ns0) ∧
    (∀ v, entries.filter (fun kv => kv.1 == k) = [(k, v)] →
      List.lookup k (entries.foldl (fun ns kv => dictSet ns kv.1 kv.2) ns0) = some v) := by
  intro entries
  induction entries with
  | nil =>
    intro ns0
    exact ⟨fun _ => rfl, fun v hv => by cases hv⟩
  | cons kv0 rest ih =>
    intro ns0
    obtain ⟨k0, v0⟩ := kv0
    simp only [List.foldl, List.filter]
    by_cases hk : k0 = k
    · subst hk
      rw [show ((k0, v0).1 == k0) = true from by simp]
      constructor
      · intro hf
        cases hf
      · intro v hv
        simp only [List.cons.injEq] at hv
        obtain ⟨hv1, hv2⟩ := hv
        have hv0 : v0 = v := by
          injection hv1 with _ h2
        subst hv0
        rw [(ih (dictSet ns0 k0 v0)).1 hv2]
        unfold dictSet
        rw [lookup_updEntry]
        simp
    · rw [show ((k0, v0).1 == k) = false from beq_eq_false_iff_ne.mpr hk]
      constructor
      · intro hf
        rw [(ih (dictSet ns0 k0 v0)).1 hf]
        unfold dictSet
        rw [lookup_updEntry]
        rw [if_neg (fun hc => hk hc.symm)]
      · intro v hv
        exact (ih (dictSet ns0 k0 v0)).2 v hv


theorem strStartsWith_dash1 (x : String) : strStartsWith ("-" ++ x) "-" = true := by
  cases x with
  | mk l => simp [strStartsWith, String.append, List.isPrefixOf]

theorem strStartsWith_dash2 (x : String) : strStartsWith ("--" ++ x) "-" = true := by
  cases x with
  | mk l => simp [strStartsWith, String.append, List.isPrefixOf]

theorem isPositional_namesL (a : ArgT) (pre : String) (dest0 : String) (df : PyVal)
    (kd : ActKind) (h : a.pos = false) :
    Action.isPositional { opts := a.namesL pre, dest := dest0, default := df, kind := kd } = false := by
  unfold ArgT.namesL
  rw [h]
  simp only [Bool.false_eq_true, if_false, List.map]
  unfold Action.isPositional
  dsimp only
  by_cases hl : ((pre ++ a.destS).length = 1 || a.one_dash) = true
  · rw [if_pos hl, strStartsWith_dash1]
    rfl
  · rw [if_neg hl, strStartsWith_dash2]
    rfl

theorem inject_spec (a : ArgT) (p : ParserR) (hpos : a.pos = false) :
    ∃ newActs,
      (a.inject p).actionsF = p.actionsF ++ newActs ∧
      newActs ≠ [] ∧
      (∀ x ∈ newActs, x.dest = a.destS ∧ x.default = a.default ∧ x.isPositional = false) ∧
      ((a.inject p).defaultsF = p.defaultsF ∨
        (a.inject p).defaultsF = dictSet p.defaultsF a.destS a.default) ∧
      (a.inject p).subsF = p.subsF := by
  obtain ⟨acts, dfs, sbs⟩ := p
  unfold ArgT.inject
  by_cases hty : a.type = some (.ofTy .bool)
  · rw [if_pos hty]
    unfold ArgT.inject_bool
    by_cases hbf : (a.bool_flag && !(a.nargs = some .star || a.nargs = some .plus)) = true
    · rw [if_pos hbf]
      by_cases hdf : a.default = .bool false
      · rw [if_pos hdf]
        refine ⟨[{ opts := a.namesL "", dest := a.destS, default := a.default, kind := .storeTrue }],
          rfl, by simp, ?_, Or.inr rfl, rfl⟩
        intro x hx
        cases hx with
        | head => exact ⟨rfl, rfl, isPositional_namesL a "" a.destS a.default .storeTrue hpos⟩
        | tail _ htl => cases htl
      · rw [if_neg hdf]
        by_cases hdt : a.default = .bool true
        · rw [if_pos hdt]
          refine ⟨[{ opts := a.namesL "no-", dest := a.destS, default := a.default, kind := .storeFalse }],
            rfl, by simp, ?_, Or.inr rfl, rfl⟩
          intro x hx
          cases hx with
          | head => exact ⟨rfl, rfl, isPositional_namesL a "no-" a.destS a.default .storeFalse hpos⟩
          | tail _ htl => cases htl
        · rw [if_neg hdt]
          refine ⟨[{ opts := a.namesL "", dest := a.destS, default := a.default, kind := .storeTrue }, { opts := a.namesL "no-", dest := a.destS, default := a.default, kind := .storeFalse }], ?_, by simp, ?_, Or.inr rfl, rfl⟩
          · simp [ParserR.addAction, ParserR.setDefaults, ParserR.actionsF]
          · intro x hx
            cases hx with
            | head => exact ⟨rfl, rfl, isPositional_namesL a "" a.destS a.default .storeTrue hpos⟩
            | tail _ htl =>
              cases htl with
              | head => exact ⟨rfl, rfl, isPositional_namesL a "no-" a.destS a.default .storeFalse hpos⟩
              | tail _ htl2 => cases htl2
    · rw [if_neg hbf]
      refine ⟨[{ opts := a.namesL "", dest := a.destS, default := a.default, kind := .store (some .str2boolFn) a.nargs }], rfl, by simp, ?_, Or.inl rfl, rfl⟩
      intro x hx
      cases hx with
      | head => exact ⟨rfl, rfl, isPositional_namesL a "" a.destS a.default _ hpos⟩
      | tail _ htl => cases htl
  · rw [if_neg hty]
    refine ⟨[{ opts := a.namesL "", dest := a.destS, default := a.default, kind := .store a.type a.nargs }], rfl, by simp, ?_, Or.inl rfl, rfl⟩
    intro x hx
    cases hx with
    | head => exact ⟨rfl, rfl, isPositional_namesL a "" a.destS a.default _ hpos⟩
    | tail _ htl => cases htl


theorem fold_inject_spec : ∀ (args : List ArgT) (p : ParserR),
    (∀ b ∈ args, b.pos = false) →
    ∃ extra,
      (args.foldl (fun p b => b.inject p) p).actionsF = p.actionsF ++ extra ∧
      (∀ x ∈ extra, (∃ b ∈ args, x.dest = b.destS ∧ x.default = b.default) ∧
        x.isPositional = false) ∧
      (∀ k, (∀ b ∈ args, b.destS ≠ k) →
        List.lookup k (args.foldl (fun p b => b.inject p) p).defaultsF =
          List.lookup k p.defaultsF ∧
        ((args.foldl (fun p b => b.inject p) p).defaultsF.filter (fun kv => kv.1 == k)) =
          (p.defaultsF.filter (fun kv => kv.1 == k))) := by
  intro args
  induction args with
  | nil =>
    intro p _
    exact ⟨[], by simp, fun x hx => absurd hx (List.not_mem_nil x), fun k _ => ⟨rfl, rfl⟩⟩
  | cons b rest ih =>
    intro p hpos
    obtain ⟨newActs, hacts, _, hprops, hdfs, _⟩ :=
      inject_spec b p (hpos b (List.mem_cons_self b rest))
    obtain ⟨extra, hacts2, hprops2, hdfs2⟩ :=
      ih (b.inject p) (fun c hc => hpos c (List.mem_cons_of_mem b hc))
    refine ⟨newActs ++ extra, ?_, ?_, ?_⟩
    · simp only [List.foldl]
      rw [hacts2, hacts, List.append_assoc]
    · intro x hx
      cases List.mem_append.mp hx with
      | inl hnew =>
        obtain ⟨hd, hdef, hip⟩ := hprops x hnew
        exact ⟨⟨b, List.mem_cons_self b rest, hd, hdef⟩, hip⟩
      | inr hext =>
        obtain ⟨⟨c, hc, hcd⟩, hip⟩ := hprops2 x hext
        exact ⟨⟨c, List.mem_cons_of_mem b hc, hcd⟩, hip⟩
    · intro k hk
      have hbk : b.destS ≠ k := hk b (List.mem_cons_self b rest)
      have hrest : ∀ c ∈ rest, c.destS ≠ k := fun c hc => hk c (List.mem_cons_of_mem b hc)
      obtain ⟨hl2, hf2⟩ := hdfs2 k hrest
      simp only [List.foldl]
      constructor
      · rw [hl2]
        cases hdfs with
        | inl he => rw [he]
        | inr he =>
          rw [he]
          unfold dictSet
          rw [lookup_updEntry]
          rw [if_neg (fun hc => hbk hc.symm)]
      · rw [hf2]
        cases hdfs with
        | inl he => rw [he]
        | inr he =>
          rw [he]
          unfold dictSet
          rw [filter_updEntry_other p.defaultsF b.destS k b.default hbk]


theorem fold_inject_nsGet : ∀ (args : List ArgT) (p0 : ParserR) (a : ArgT),
    a ∈ args →
    (∀ b ∈ args, b.pos = false) →
    (args.map ArgT.destS).Nodup →
    (∀ x ∈ p0.actionsF, x.dest ≠ a.destS) →
    List.lookup a.destS p0.defaultsF = Option.none →
    nsGet (initDefaults (args.foldl (fun p b => b.inject p) p0)) a.destS = a.default := by
  intro args
  induction args with
  | nil =>
    intro p0 a ha
    cases ha
  | cons b rest ih =>
    intro p0 a ha hpos hnd hact hdf
    have hndrest : (rest.map ArgT.destS).Nodup := by
      simp only [List.map_cons, List.nodup_cons] at hnd
      exact hnd.2
    cases ha with
    | head =>
      obtain ⟨newActs, hacts, hne, hprops, hdfs, _⟩ :=
        inject_spec b p0 (hpos b (List.mem_cons_self b rest))
      have hkrest : ∀ c ∈ rest, c.destS ≠ b.destS := by
        intro c hc hceq
        simp only [List.map_cons, List.nodup_cons] at hnd
        exact hnd.1 (hceq ▸ List.mem_map.mpr ⟨c, hc, rfl⟩)
      obtain ⟨extra, hacts2, hprops2, hdfs2⟩ :=
        fold_inject_spec rest (b.inject p0) (fun c hc => hpos c (List.mem_cons_of_mem b hc))
      obtain ⟨hl2, hf2⟩ := hdfs2 b.destS hkrest
      simp only [List.foldl]
      unfold nsGet initDefaults
      have hp0filter : p0.defaultsF.filter (fun kv => kv.1 == b.destS) = [] := by
        apply List.filter_eq_nil_iff.mpr
        intro kv hkv
        simp only [Bool.not_eq_true, beq_eq_false_iff_ne]
        exact lookup_none_forall p0.defaultsF b.destS hdf kv hkv
      have hbase : List.lookup b.destS
          ((List.foldl (fun p b => b.inject p) (b.inject p0) rest).actionsF.foldl
            (fun ns a => if (List.lookup a.dest ns).isSome then ns else ns ++ [(a.dest, a.default)])
            []) = some b.default := by
        rw [initDefaults_base_lookup b.destS _ [] rfl]
        rw [hacts2, hacts]
        rw [List.append_assoc, List.find?_append]
        have hfp0 : p0.actionsF.find? (fun x => x.dest == b.destS) = Option.none := by
          apply List.find?_eq_none.mpr
          intro x hx
          simp only [Bool.not_eq_true, beq_eq_false_iff_ne]
          exact hact x hx
        rw [hfp0]
        cases hnewActs : newActs with
        | nil => exact absurd hnewActs hne
        | cons x tl =>
          have hx := hprops x (by rw [hnewActs]; exact List.mem_cons_self x tl)
          simp only [List.find?_append, List.find?]
          rw [show (x.dest == b.destS) = true from by simp [hx.1]]
          simp [hx.2.1]
      cases hdfs with
      | inl he =>
        rw [(overlay_lookup b.destS _ _).1 ?_]
        · rw [hbase]
          rfl
        · rw [hf2, he]
          exact hp0filter
      | inr he =>
        rw [(overlay_lookup b.destS _ _).2 b.default ?_]
        · rfl
        · rw [hf2, he]
          unfold dictSet
          rw [updEntry_absent p0.defaultsF b.destS b.default hdf]
          rw [List.filter_append, hp0filter]
          simp
    | tail _ htl =>
      obtain ⟨newActs, hacts, hne, hprops, hdfs, _⟩ :=
        inject_spec b p0 (hpos b (List.mem_cons_self b rest))
      have hba : b.destS ≠ a.destS := by
        intro hceq
        simp only [List.map_cons, List.nodup_cons] at hnd
        exact hnd.1 (hceq ▸ List.mem_map.mpr ⟨a, htl, rfl⟩)
      simp only [List.foldl]
      apply ih (b.inject p0) a htl (fun c hc => hpos c (List.mem_cons_of_mem b hc)) hndrest
      · intro x hx
        rw [hacts] at hx
        cases List.mem_append.mp hx with
        | inl hp => exact hact x hp
        | inr hn => exact (hprops x hn).1 ▸ hba
      · cases hdfs with
        | inl he => rw [he]; exact hdf
        | inr he =>
          rw [he]
          unfold dictSet
          rw [lookup_updEntry]
          rw [if_neg (fun hc => hba hc.symm)]
          exact hdf

theorem fold_inject_no_required (args : List ArgT) (hpos : ∀ b ∈ args, b.pos = false) :
    ((args.foldl (fun p b => b.inject p) (ParserR.mk [] [] [])).actionsF.any
      (fun a => a.isPositional && a.kind.requiresValues)) = false := by
  obtain ⟨extra, hacts, hprops, _⟩ := fold_inject_spec args (ParserR.mk [] [] []) hpos
  rw [hacts]
  apply List.any_eq_false.mpr
  intro x hx
  simp only [List.nil_append] at hx
  rw [(hprops x hx).2]
  simp

theorem setArgsValues_clsName (args : List ArgT) (r : ResI) (ns : NamespaceN) :
    (setArgsValues r ns args).clsNameF = r.clsNameF := by
  induction args generalizing r with
  | nil => rfl
  | cons a rest ih =>
    unfold setArgsValues at *
    simp only [List.foldl]
    rw [ih (setattrR r a.destS (.prim (nsGet ns a.destS)))]
    rfl

theorem setArgsValues_assigned : ∀ (args : List ArgT) (r : ResI) (ns : NamespaceN),
    (∀ a ∈ args, List.lookup a.destS r.assignedF = Option.none) →
    (args.map ArgT.destS).Nodup →
    (setArgsValues r ns args).assignedF =
      r.assignedF ++ args.map (fun a => (a.destS, RVal.prim (nsGet ns a.destS))) := by
  intro args
  induction args with
  | nil =>
    intro r ns _ _
    simp [setArgsValues]
  | cons a rest ih =>
    intro r ns habs hnd
    unfold setArgsValues at *
    simp only [List.foldl, List.map]
    have hset : (setattrR r a.destS (.prim (nsGet ns a.destS))).assignedF =
        r.assignedF ++ [(a.destS, RVal.prim (nsGet ns a.destS))] := by
      unfold setattrR
      rw [updEntry_absent r.assignedF a.destS _ (habs a (List.mem_cons_self a rest))]
      rfl
    rw [ih (setattrR r a.destS (.prim (nsGet ns a.destS))) ns ?_ ?_]
    · rw [hset, List.append_assoc]
      rfl
    · intro b hb
      rw [hset, lookup_append]
      rw [habs b (List.mem_cons_of_mem a hb)]
      have hba : b.destS ≠ a.destS := by
        intro hc
        simp only [List.map_cons, List.nodup_cons] at hnd
        exact hnd.1 (hc ▸ List.mem_map.mpr ⟨b, hb, rfl⟩)
      simp [List.lookup, beq_eq_false_iff_ne.mpr hba]
    · simp only [List.map_cons, List.nodup_cons] at hnd
      exact hnd.2

theorem except_bind_ok {ε α β : Type} {e : Except ε α} {f : α → Except ε β} {b : β}
    (h : e >>= f = .ok b) : ∃ x, e = .ok x ∧ f x = .ok b := by
  cases e with
  | error err =>
    exact absurd h (by intro hc; cases hc)
  | ok x =>
    refine ⟨x, rfl, ?_⟩
    exact h

theorem read_args_name (o : ReadOpts) (cd : ClassDef) (t : SubTree)
    (h : _read_args o cd = .ok t) : t.cdF.nameF = cd.nameF := by
  cases cd with
  | mk cname decls =>
    unfold _read_args at h
    obtain ⟨annOuts, _, h⟩ := except_bind_ok h
    obtain ⟨po, _, h⟩ := except_bind_ok h
    have h2 : (SubTree.node (.mk cname po.2) ((annOuts ++ po.1).filterMap (fun fo =>
        match fo with | .plain _ a => some a | _ => none)) ((annOuts ++ po.1).filterMap (fun fo =>
        match fo with | .sub k t => some (k, t) | _ => none))) = t := by
      injection h
    rw [← h2]
    rfl

theorem ok_bind {ε α β : Type} (x : α) (f : α → Except ε β) :
    ((Except.ok x : Except ε α) >>= f) = f x := rfl

theorem lookup_map_dest {β : Type} (f : ArgT → β) : ∀ (args : List ArgT) (a : ArgT),
    a ∈ args → (args.map ArgT.destS).Nodup →
    List.lookup a.destS (args.map (fun b => (b.destS, f b))) = some (f a) := by
  intro args
  induction args with
  | nil =>
    intro a ha
    cases ha
  | cons b rest ih =>
    intro a ha hnd
    simp only [List.map_cons, List.nodup_cons] at hnd
    cases ha with
    | head =>
      simp [List.lookup]
    | tail _ htl =>
      have hba : a.destS ≠ b.destS := by
        intro hc
        exact hnd.1 (hc ▸ List.mem_map.mpr ⟨a, htl, rfl⟩)
      simp only [List.map_cons, List.lookup]
      rw [show (a.destS == b.destS) = false from beq_eq_false_iff_ne.mpr hba]
      exact ih a htl hnd.2

theorem resEta (r : ResI) : r = .mk r.clsNameF r.assignedF := by
  cases r
  rfl

theorem make_parser_noSubs (args : List ArgT) :
    mkParser "root" args [] = args.foldl (fun p b => b.inject p) (ParserR.mk [] [] []) := rfl

theorem parserParseArgs_empty (p : ParserR)
    (hreq : p.actionsF.any (fun a => a.isPositional && a.kind.requiresValues) = false) :
    parserParseArgs p [] = .ok (initDefaults p) := by
  show (if p.actionsF.any (fun a => a.isPositional && a.kind.requiresValues) = true
      then (.error (.usageError "the following arguments are required") : Except PyErr NamespaceN)
      else .ok (initDefaults p)) = .ok (initDefaults p)
  rw [hreq]
  simp

theorem setValues_noSubs (pname : String) (res : ResI) (ns : NamespaceN) (args : List ArgT) :
    setValues pname res ns args [] = .ok (setArgsValues res ns args) := rfl

theorem stringifyPairs_map (l : List (String × RVal)) :
    stringifyPairs l = l.map (fun kv => kv.1 ++ "=" ++ reprRV kv.2) := by
  induction l with
  | nil => rfl
  | cons kv rest ih =>
    rw [show stringifyPairs (kv :: rest) =
      (kv.1 ++ "=" ++ reprRV kv.2) :: stringifyPairs rest from rfl]
    rw [ih]
    rfl

theorem shortcutsTree_cd (m : List (String × Nat)) (t t2 : SubTree) (m2 : List (String × Nat))
    (h : shortcutsTree m t = .ok (t2, m2)) : t2.cdF = t.cdF := by
  cases t with
  | node cd args subs =>
    unfold shortcutsTree at h
    cases hg : shortcutsGo m args with
    | error e =>
      rw [hg] at h
      cases h
    | ok p =>
      rw [hg] at h
      obtain ⟨args2, mg⟩ := p
      dsimp only at h
      cases hs : shortcutsSubs mg subs with
      | error e =>
        rw [hs] at h
        cases h
      | ok q =>
        rw [hs] at h
        obtain ⟨subs2, m3⟩ := q
        dsimp only at h
        injection h with h1
        have h2 : SubTree.node cd args2 subs2 = t2 := congrArg Prod.fst h1
        rw [← h2]
        rfl

theorem shortcutStep_cd (tree tree2 : SubTree) (h : shortcutStep tree = .ok tree2) :
    tree2.cdF = tree.cdF := by
  unfold shortcutStep at h
  obtain ⟨p, hp, h2⟩ := except_bind_ok h
  have h3 : (Except.ok p.1 : Except PyErr SubTree) = .ok tree2 := h2
  injection h3 with h4
  rw [← h4]
  exact shortcutsTree_cd _ tree p.1 p.2 hp

theorem pipeline_tail (tree2 : SubTree)
    (hsubs : tree2.subsF = [])
    (hpos : ∀ b ∈ tree2.argsF, b.pos = false)
    (hnd : (tree2.argsF.map ArgT.destS).Nodup) :
    (parserParseArgs (mkParser "root" tree2.argsF tree2.subsF) [] >>=
      fun ns => setValues "root" (freshRes tree2) ns tree2.argsF tree2.subsF) =
    .ok (ResI.mk tree2.cdF.nameF
      (tree2.argsF.map (fun a => (a.destS, RVal.prim a.default)))) := by
  rw [hsubs]
  rw [make_parser_noSubs]
  rw [parserParseArgs_empty _ (fold_inject_no_required tree2.argsF hpos), ok_bind]
  show setValues "root" (freshRes tree2)
    (initDefaults (tree2.argsF.foldl (fun p b => b.inject p) (ParserR.mk [] [] [])))
    tree2.argsF [] = _
  rw [setValues_noSubs]
  have h2 := setArgsValues_assigned tree2.argsF (freshRes tree2)
    (initDefaults (tree2.argsF.foldl (fun p b => b.inject p) (ParserR.mk [] [] [])))
    (fun a _ => rfl) hnd
  have h1 := setArgsValues_clsName tree2.argsF (freshRes tree2)
    (initDefaults (tree2.argsF.foldl (fun p b => b.inject p) (ParserR.mk [] [] [])))
  have hm : tree2.argsF.map (fun a => (a.destS, RVal.prim (nsGet
      (initDefaults (tree2.argsF.foldl (fun p b => b.inject p) (ParserR.mk [] [] [])))
      a.destS))) = tree2.argsF.map (fun a => (a.destS, RVal.prim a.default)) := by
    apply List.map_congr_left
    intro a ha
    have hg := fold_inject_nsGet tree2.argsF (ParserR.mk [] [] []) a ha hpos hnd
      (fun x hx => absurd hx (List.not_mem_nil x)) rfl
    rw [hg]
  rw [resEta (setArgsValues (freshRes tree2)
    (initDefaults (tree2.argsF.foldl (fun p b => b.inject p) (ParserR.mk [] [] [])))
    tree2.argsF)]
  rw [h1, h2, hm]
  rfl

theorem pipeline_empty_core (cd : ClassDef) (o : ParseOpts) (tree tree2 : SubTree)
    (hread : _read_args { override := o.override, bool_flag := o.bool_flag,
                          one_dash := o.one_dash } cd = .ok tree)
    (hshort : (if o.make_shortcuts then shortcutStep tree else pure tree) = .ok tree2)
    (hsubs : tree2.subsF = [])
    (hpos : ∀ b ∈ tree2.argsF, b.pos = false)
    (hnd : (tree2.argsF.map ArgT.destS).Nodup) :
    parse_args cd [] o = .ok (ResI.mk tree2.cdF.nameF
      (tree2.argsF.map (fun a => (a.destS, RVal.prim a.default)))) := by
  unfold parse_args
  rw [hread, ok_bind]
  cases hms : o.make_shortcuts with
  | true =>
    rw [hms] at hshort
    rw [if_pos rfl] at hshort
    show (shortcutStep tree >>= fun y =>
      parserParseArgs (mkParser "root" y.argsF y.subsF) [] >>=
        fun ns => setValues "root" (freshRes y) ns y.argsF y.subsF) = _
    rw [hshort, ok_bind]
    exact pipeline_tail tree2 hsubs hpos hnd
  | false =>
    rw [hms] at hshort
    rw [if_neg Bool.false_ne_true] at hshort
    have h3 : (Except.ok tree : Except PyErr SubTree) = .ok tree2 := hshort
    injection h3 with h4
    show (parserParseArgs (mkParser "root" tree.argsF tree.subsF) [] >>=
      fun ns => setValues "root" (freshRes tree) ns tree.argsF tree.subsF) = _
    rw [h4]
    exact pipeline_tail tree2 hsubs hpos hnd

/-- C2 as stated is false, in two independent ways: a structure definition
with a single positional field and no sub-commands makes the empty command
line a missing-required-argument usage error (the positional demands a
value), and even a non-positional field with a distinct destination fails
when its name `a__b` has an empty underscore-separated segment — the
shortcut pass raises `IndexError` on it.  Neither parse succeeds with
defaults. -/
theorem parse_args_empty_claim_cex :
    parse_args (ClassDef.mk "P" [Decl.mk "path" Option.none
        (some (.argD { pos := true, bool_flag := false }))]) [] {} =
      .error (.usageError "the following arguments are required") ∧
    parse_args (ClassDef.mk "C" [Decl.mk "a__b" Option.none
        (some (.pv (.int 1)))]) [] {} = .error .indexError :=
  ⟨rfl, rfl⟩

/-- C2 (amended): for a structure definition that reads into a descriptor
tree with no sub-commands, on which the shortcut pass — when enabled —
succeeds (it raises `IndexError` for an alias-less destination with an
empty underscore-separated segment, such as `a__b`), and whose descriptors
are all non-positional with pairwise distinct destinations, `parse_args`
on the empty token list succeeds and returns a result instance carrying
the class name in which every descriptor's field equals its declared
default. -/
theorem parse_args_empty_defaults (cd : ClassDef) (o : ParseOpts) (tree tree2 : SubTree)
    (hread : _read_args { override := o.override, bool_flag := o.bool_flag,
                          one_dash := o.one_dash } cd = .ok tree)
    (hshort : (if o.make_shortcuts then shortcutStep tree else pure tree) = .ok tree2)
    (hsubs : tree2.subsF = [])
    (hpos : ∀ b ∈ tree2.argsF, b.pos = false)
    (hnd : (tree2.argsF.map ArgT.destS).Nodup) :
    ∃ res, parse_args cd [] o = .ok res ∧ res.clsNameF = cd.nameF ∧
      ∀ a ∈ tree2.argsF, getPrim res a.destS = some a.default := by
  refine ⟨_, pipeline_empty_core cd o tree tree2 hread hshort hsubs hpos hnd, ?_, ?_⟩
  · show tree2.cdF.nameF = cd.nameF
    have hname := read_args_name _ cd tree hread
    cases hms : o.make_shortcuts with
    | true =>
      rw [hms, if_pos rfl] at hshort
      rw [shortcutStep_cd tree tree2 hshort]
      exact hname
    | false =>
      rw [hms, if_neg Bool.false_ne_true] at hshort
      have h3 : (Except.ok tree : Except PyErr SubTree) = .ok tree2 := hshort
      injection h3 with h4
      rw [← h4]
      exact hname
  · intro a ha
    have hl := lookup_map_dest (fun b => RVal.prim b.default) tree2.argsF a ha hnd
    unfold getPrim lookupR
    rw [show ResI.assignedF (ResI.mk tree2.cdF.nameF
      (tree2.argsF.map (fun b => (b.destS, RVal.prim b.default)))) =
      tree2.argsF.map (fun b => (b.destS, RVal.prim b.default)) from rfl]
    rw [hl]

theorem parse_args_empty_defaults_witness :
    ∃ res, parse_args (ClassDef.mk "A" [Decl.mk "n" (some .int) (some (.pv (.int 5)))])
        [] {} = .ok res ∧
      res.clsNameF = "A" ∧
      ∀ a ∈ [({ dest := some "n", type := some (.ofTy .int), default := .int 5 } : ArgT)],
        getPrim res a.destS = some a.default :=
  parse_args_empty_defaults
    (ClassDef.mk "A" [Decl.mk "n" (some .int) (some (.pv (.int 5)))]) {}
    (SubTree.node (ClassDef.mk "A" [Decl.mk "n" (some .int) (some (.pv (.int 5)))])
      [{ dest := some "n", type := some (.ofTy .int), default := .int 5 }] [])
    (SubTree.node (ClassDef.mk "A" [Decl.mk "n" (some .int) (some (.pv (.int 5)))])
      [{ dest := some "n", type := some (.ofTy .int), default := .int 5 }] [])
    rfl rfl rfl (by decide) (by decide)

/-- C8 as stated is false: `stringify` renders the instance `__dict__` in
attribute-assignment order, which puts annotation-only fields before valued
fields; declaring a valued field first makes the rendering deviate from
declaration order. -/
theorem stringify_claim_cex :
    parse_args (ClassDef.mk "M" [Decl.mk "y" Option.none (some (.pv (.int 2))),
        Decl.mk "x" (some .int) Option.none]) [] {} =
      .ok (ResI.mk "M" [("x", .prim .none), ("y", .prim (.int 2))]) ∧
    stringify (ResI.mk "M" [("x", .prim .none), ("y", .prim (.int 2))]) =
      "M(x=None, y=2)" ∧
    renderDeclOrder (ClassDef.mk "M" [Decl.mk "y" Option.none (some (.pv (.int 2))),
        Decl.mk "x" (some .int) Option.none])
      (ResI.mk "M" [("x", .prim .none), ("y", .prim (.int 2))]) = "M(y=2, x=None)" ∧
    ("M(x=None, y=2)" : String) ≠ "M(y=2, x=None)" :=
  ⟨rfl, rfl, rfl, by decide⟩

/-- C8 (amended): `stringify` wraps in the class name the `name=repr(value)`
pairs of the instance `__dict__` in attribute-assignment order; for an
empty-command-line parse of a sub-command-free class with distinct
non-positional descriptors that is exactly descriptor order (each
destination exactly once), not raw declaration order. -/
theorem stringify_assignment_order (cd : ClassDef) (o : ParseOpts) (tree tree2 : SubTree)
    (hread : _read_args { override := o.override, bool_flag := o.bool_flag,
                          one_dash := o.one_dash } cd = .ok tree)
    (hshort : (if o.make_shortcuts then shortcutStep tree else pure tree) = .ok tree2)
    (hsubs : tree2.subsF = [])
    (hpos : ∀ b ∈ tree2.argsF, b.pos = false)
    (hnd : (tree2.argsF.map ArgT.destS).Nodup) :
    ∃ res, parse_args cd [] o = .ok res ∧
      stringify res = tree2.cdF.nameF ++ "(" ++ String.intercalate ", "
        (tree2.argsF.map (fun a => a.destS ++ "=" ++ pyRepr a.default)) ++ ")" := by
  refine ⟨_, pipeline_empty_core cd o tree tree2 hread hshort hsubs hpos hnd, ?_⟩
  rw [show stringify (ResI.mk tree2.cdF.nameF
      (tree2.argsF.map (fun a => (a.destS, RVal.prim a.default)))) =
    tree2.cdF.nameF ++ "(" ++ String.intercalate ", "
      (stringifyPairs (tree2.argsF.map (fun a => (a.destS, RVal.prim a.default)))) ++ ")"
    from rfl]
  rw [stringifyPairs_map, List.map_map]
  rfl

theorem stringify_assignment_order_witness :
    ∃ res, parse_args (ClassDef.mk "M" [Decl.mk "y" Option.none (some (.pv (.int 2))),
        Decl.mk "x" (some .int) Option.none]) [] {} = .ok res ∧
      stringify res = "M(x=None, y=2)" :=
  stringify_assignment_order
    (ClassDef.mk "M" [Decl.mk "y" Option.none (some (.pv (.int 2))),
      Decl.mk "x" (some .int) Option.none]) {}
    (SubTree.node (ClassDef.mk "M" [Decl.mk "y" Option.none (some (.pv (.int 2))),
        Decl.mk "x" (some .int) Option.none])
      [{ dest := some "x", type := some (.ofTy .int), default := .none },
       { dest := some "y", type := some (.ofTy .int), default := .int 2 }] [])
    (SubTree.node (ClassDef.mk "M" [Decl.mk "y" Option.none (some (.pv (.int 2))),
        Decl.mk "x" (some .int) Option.none])
      [{ dest := some "x", type := some (.ofTy .int), default := .none },
       { dest := some "y", type := some (.ofTy .int), default := .int 2 }] [])
    rfl rfl rfl (by decide) (by decide)

end Argser
